import Mathlib

/-!
Verification of the mobile-navigation overlay engine
(`src/pagespeed/opt/mobilize/mobilize_nav.js`) against its specification.

The DOM is shallowly embedded as a rose tree of element/text nodes.  Each
element node carries its tag name, a visibility flag (modelling the
`offsetParent !== null` test the source uses), its attribute list and its
children.  JavaScript strings are modelled as Lean `String`s; JS objects used
as string-keyed dictionaries are modelled as association lists; JS numbers
that the source only ever holds as small integers are modelled as `Nat`/`Int`.
-/

set_option autoImplicit false

namespace MobilizeNav

/-- ASCII upper-casing of one character, as JS `toUpperCase` acts on the
ASCII tag/label characters the source compares. -/
def chUp (c : Char) : Char := c.toUpper

/-- ASCII lower-casing of one character, as JS `toLowerCase` acts on ASCII. -/
def chDown (c : Char) : Char := c.toLower

/-- JS `String.prototype.toUpperCase` restricted to ASCII content. -/
def jsUpper (s : String) : String := String.mk (s.data.map chUp)

/-- JS `String.prototype.toLowerCase` restricted to ASCII content. -/
def jsLower (s : String) : String := String.mk (s.data.map chDown)

/-- `goog.string.trim(s).length`: length of the whitespace-trimmed string. -/
def trimLen (s : String) : Nat := s.trim.length

/-- A DOM node: an element (tag name, visibility = `offsetParent !== null`,
attributes, children in document order) or a text node.  Comment/CDATA nodes
never influence the verified routines and are omitted from the model. -/
inductive DomNode where
  | elem (tag : String) (vis : Bool) (attrs : List (String × String)) (children : List DomNode)
  | text (s : String)
deriving Repr

/-- `node.nodeName`: the tag for elements, `#text` for text nodes. -/
def nodeName : DomNode → String
  | .elem tag _ _ _ => tag
  | .text _ => "#text"

/-- `node.nodeName.toUpperCase()`. -/
def upperName (n : DomNode) : String := jsUpper (nodeName n)

/-- Children of a node (text nodes have none). -/
def childrenOf : DomNode → List DomNode
  | .elem _ _ _ cs => cs
  | .text _ => []

/-- `element.getAttribute(name)` (first matching attribute entry). -/
def getAttr (n : DomNode) (name : String) : Option String :=
  match n with
  | .elem _ _ attrs _ => (attrs.find? (fun p => p.1 == name)).map Prod.snd
  | .text _ => none

/-- `element.id`: the id attribute, or the empty string when absent. -/
def jsIdOf (n : DomNode) : String := (getAttr n "id").getD ""

/-- Whether `child.offsetParent === null` holds.  For text nodes
`offsetParent` is `undefined`, and `undefined === null` is false in JS. -/
def offsetParentIsNull : DomNode → Bool
  | .elem _ vis _ _ => !vis
  | .text _ => false

mutual

/-- `node.textContent`: concatenation of all descendant text. -/
def textContent : DomNode → String
  | .text s => s
  | .elem _ _ _ cs => textContentList cs

/-- Text content of a list of sibling nodes, in document order. -/
def textContentList : List DomNode → String
  | [] => ""
  | c :: cs => textContent c ++ textContentList cs

end

mutual

/-- `labelNavDepth_(node, currDepth, opt_inUl)`: walk the children; recurse
into a `UL` at depth `currDepth + 1` if already inside a `UL` (else at the
same depth), collect every `A` tag labeled with the current depth (the source
records the label in a `data-mobilize-nav-level` attribute and returns the
tags; the embedding returns the tag/label pairs directly). -/
def labelNavDepth (node : DomNode) (currDepth : Nat) (inUl : Bool) :
    List (DomNode × Nat) :=
  match node with
  | .text _ => []
  | .elem _ _ _ cs => labelNavChildren cs currDepth inUl

/-- The `for (var child = node.firstChild; ...)` loop of `labelNavDepth_`. -/
def labelNavChildren (cs : List DomNode) (currDepth : Nat) (inUl : Bool) :
    List (DomNode × Nat) :=
  match cs with
  | [] => []
  | child :: rest =>
    (if upperName child == "UL" then
      labelNavDepth child (if inUl then currDepth + 1 else currDepth) true
    else
      (if upperName child == "A" then [(child, currDepth)] else []) ++
        labelNavDepth child currDepth inUl) ++
    labelNavChildren rest currDepth inUl

end

mutual

/-- Specification-side counting (§4.2 / §8 of the spec): traverse the subtree
in document order carrying `u`, the number of enclosing list (`UL`) elements,
and record each link at depth `u - 1` truncated at zero — the first list
level establishes list context without incrementing depth, each further
nested list adds one. -/
def anchorsWithListNesting (node : DomNode) (u : Nat) : List (DomNode × Nat) :=
  match node with
  | .text _ => []
  | .elem _ _ _ cs => anchorsWithListNestingList cs u

/-- List-nesting traversal over sibling lists. -/
def anchorsWithListNestingList (cs : List DomNode) (u : Nat) :
    List (DomNode × Nat) :=
  match cs with
  | [] => []
  | child :: rest =>
    (if upperName child == "UL" then anchorsWithListNesting child (u + 1)
    else
      (if upperName child == "A" then [(child, u - 1)] else []) ++
        anchorsWithListNesting child u) ++
    anchorsWithListNestingList rest u

end

mutual

/-- Whether a node or any of its descendants is an `IMG` satisfying the
visibility requirement (`!visMatters || offsetParent !== null`). -/
def imgInNode (visMatters : Bool) : DomNode → Bool
  | .text _ => false
  | .elem tag vis _ cs =>
    (jsUpper tag == "IMG" && (!visMatters || vis)) || imgInList visMatters cs

/-- `imgInNode` over a sibling list. -/
def imgInList (visMatters : Bool) : List DomNode → Bool
  | [] => false
  | c :: cs => imgInNode visMatters c || imgInList visMatters cs

end

mutual

/-- Whether a node or any of its descendants is a `SCRIPT` element. -/
def scriptInNode : DomNode → Bool
  | .text _ => false
  | .elem tag _ _ cs => jsUpper tag == "SCRIPT" || scriptInList cs

/-- `scriptInNode` over a sibling list. -/
def scriptInList : List DomNode → Bool
  | [] => false
  | c :: cs => scriptInNode c || scriptInList cs

end

/-- `hasImages_(visibilityMatters, node)`: a text node is not an element and
yields false; an `IMG` element checks its own visibility when it matters;
anything else searches its descendants (`getElementsByTagName`). -/
def hasImages (visMatters : Bool) (node : DomNode) : Bool :=
  match node with
  | .text _ => false
  | .elem tag vis _ cs =>
    if jsUpper tag == "IMG" then !visMatters || vis
    else imgInList visMatters cs

/-- The child at index `i` (the discovered element is always one of the
parent's children, so the default is never reached on real inputs). -/
def elemAt (cs : List DomNode) (i : Nat) : DomNode := (cs.get? i).getD (.text "")

/-- The sibling walk of `canEnlargeNav_`: `j` is the index of `child`, `i`
the index of `element`, `eVis` the element's visibility, `saw` the
`sawElement` flag and `pre` the accumulated `preElementTextSize`.  The
source's branch skipping comment/CDATA node types is vacuous here because
the model has only element and text nodes. -/
def enlargeWalk : List DomNode → Nat → Nat → Bool → Bool → Nat → Bool
  | [], _, _, _, _, _ => true
  | child :: rest, j, i, eVis, saw, pre =>
    if j == i then enlargeWalk rest (j + 1) i eVis true pre
    else if offsetParentIsNull child && eVis then enlargeWalk rest (j + 1) i eVis saw pre
    else if hasImages eVis child then false
    else
      let t := trimLen (textContent child)
      if 0 < t then
        if saw then false
        else if 60 < pre + t then false
        else enlargeWalk rest (j + 1) i eVis saw (pre + t)
      else enlargeWalk rest (j + 1) i eVis saw pre

/-- `canEnlargeNav_(element)` for `element` = child `i` of `parent` (the
source's null-parent guard is handled at the call site, which only invokes
the heuristic when a parent exists): refuse outright if the parent's subtree
contains any `SCRIPT`, otherwise run the sibling walk. -/
def canEnlargeNav (parent : DomNode) (i : Nat) : Bool :=
  if scriptInList (childrenOf parent) then false
  else
    enlargeWalk (childrenOf parent) 0 i
      (!offsetParentIsNull (elemAt (childrenOf parent) i)) false 0

/-- A sibling (index different from `i`) satisfying a predicate, `j` being
the index of the head of the list. -/
def siblingHas : List DomNode → Nat → Nat → (DomNode → Bool) → Bool
  | [], _, _, _ => false
  | c :: rest, i, j, p => (!(j == i) && p c) || siblingHas rest i (j + 1) p

/-- Non-whitespace text in a sibling strictly after index `i`. -/
def afterHasText : List DomNode → Nat → Nat → Bool
  | [], _, _ => false
  | c :: rest, i, j =>
    (decide (i < j) && decide (0 < trimLen (textContent c))) || afterHasText rest i (j + 1)

/-- Total non-whitespace text in the siblings strictly before index `i`. -/
def claimPreText : List DomNode → Nat → Nat → Nat
  | [], _, _ => 0
  | c :: rest, i, j =>
    (if j < i then trimLen (textContent c) else 0) + claimPreText rest i (j + 1)

/-- The enlarge heuristic exactly as the claim words it: false when a sibling
subtree contains a script, when a sibling subtree contains a visible image,
when non-whitespace text occurs after the element, or when the text before
the element exceeds 60 characters; true in all other cases. -/
def claimEnlarge (parent : DomNode) (i : Nat) : Bool :=
  let cs := childrenOf parent
  !siblingHas cs i 0 scriptInNode &&
  !siblingHas cs i 0 (imgInNode true) &&
  !afterHasText cs i 0 &&
  decide (claimPreText cs i 0 ≤ 60)

/-- Whether the walk does not skip a child: a child is skipped exactly when
it is invisible while the element is visible. -/
def qualifies (eVis : Bool) (c : DomNode) : Bool := !(offsetParentIsNull c && eVis)

/-- A non-skipped sibling carrying a disqualifying image. -/
def imgViolation (eVis : Bool) (i : Nat) : Nat → List DomNode → Bool
  | _, [] => false
  | j, c :: rest =>
    (!(j == i) && qualifies eVis c && hasImages eVis c) || imgViolation eVis i (j + 1) rest

/-- A non-skipped sibling after the element carrying non-whitespace text. -/
def textAfterViolation (eVis : Bool) (i : Nat) : Nat → List DomNode → Bool
  | _, [] => false
  | j, c :: rest =>
    (decide (i < j) && qualifies eVis c && decide (0 < trimLen (textContent c))) ||
      textAfterViolation eVis i (j + 1) rest

/-- Total non-whitespace text over the non-skipped siblings before the
element. -/
def preTextSum (eVis : Bool) (i : Nat) : Nat → List DomNode → Nat
  | _, [] => 0
  | j, c :: rest =>
    (if j < i ∧ qualifies eVis c = true then trimLen (textContent c) else 0) +
      preTextSum eVis i (j + 1) rest

/-- The C5 counterexample parent: its only child is the candidate element,
which contains a script in its own subtree; there are no siblings at all. -/
def c5Parent : DomNode :=
  .elem "DIV" true []
    [.elem "SPAN" true [] [.elem "SCRIPT" true [] [.text "var x;"]]]

/-- Lexicographic (code-unit) comparison of character lists, as JS `<`
compares two strings. -/
def charsLt : List Char → List Char → Bool
  | [], [] => false
  | [], _ :: _ => true
  | _ :: _, [] => false
  | a :: as, b :: bs =>
    if a.val < b.val then true
    else if b.val < a.val then false
    else charsLt as bs

/-- JS `<` on two strings. -/
def jsStrLt (a b : String) : Bool := charsLt a.data b.data

/-- The comparison `navLevel1 < navLevel2` performed by `constructNavPanel_`:
both operands are `getAttribute` results, i.e. the decimal string renderings
of the stored depths, so JS compares them lexicographically as strings. -/
def navLevelLt (a b : Nat) : Bool := jsStrLt (toString a) (toString b)

/-- An open submenu on the builder stack: the heading text of the group and
the items accumulated so far for its `UL`. -/
structure Frame where
  title : String
  items : List DomNode
deriving Repr

/-- Builder stack: the root `UL`'s items plus the open frames, top first.
The JS stack `navSubmenus` has length `frames.length + 1` (the root `UL` is
its bottom element). -/
structure BuildSt where
  root : List DomNode
  frames : List Frame
deriving Repr

/-- Append an item to the top-of-stack submenu
(`navSubmenus[navSubmenus.length - 1].appendChild(item)`). -/
def pushItem (st : BuildSt) (item : DomNode) : BuildSt :=
  match st.frames with
  | [] => { st with root := st.root ++ [item] }
  | f :: rest => { st with frames := { f with items := f.items ++ [item] } :: rest }

/-- The `LI` materialized for a depth increase: a `DIV` holding an `A` with
the copied text and placeholder href `#`, plus the (eventually filled)
submenu `UL`.  The source appends this `LI` to the parent submenu at group
opening and then mutates the nested `UL` in place; the embedding keeps the
pending `UL` items in the frame and materializes the identical `LI` when the
group closes, which yields the same tree because the parent submenu receives
no further children while the group is open. -/
def groupLI (f : Frame) : DomNode :=
  .elem "LI" true []
    [.elem "DIV" true [] [.elem "A" true [("href", "#")] [.text f.title]],
     .elem "UL" true [] f.items]

/-- The `LI` holding a leaf: `item.appendChild(navATags[j].cloneNode(true))`;
a deep clone of a pure value is the value itself. -/
def leafLI (a : DomNode) : DomNode := .elem "LI" true [] [a]

/-- Open a new group (`navSubmenus.push(submenu)`). -/
def openGroup (st : BuildSt) (title : String) : BuildSt :=
  { st with frames := ⟨title, []⟩ :: st.frames }

/-- Pop one open group, folding its finished `UL` into the submenu below it;
at the root (`navSubmenus.length == 1`) nothing happens. -/
def popOne (st : BuildSt) : BuildSt :=
  match st.frames with
  | [] => st
  | f :: rest => pushItem ⟨st.root, rest⟩ (groupLI f)

/-- `while ((popCnt > 0) && (navSubmenus.length > 1)) navSubmenus.pop()`,
with the positive part of `popCnt` as structural fuel. -/
def popSteps : Nat → BuildSt → BuildSt
  | 0, st => st
  | _ + 1, ⟨root, []⟩ => ⟨root, []⟩
  | k + 1, st => popSteps k (popOne st)

/-- Pop `popCnt = navLevel1 - navLevel2` levels (a JS number; no pop when
it is zero or negative). -/
def popLevels (st : BuildSt) (popCnt : Int) : BuildSt := popSteps popCnt.toNat st

/-- `navATags[j].textContent || navATags[j].innerText`: the copied heading
text (the `innerText` fallback only fires when `textContent` is the empty
string, in which case `innerText` of the same node is empty as well). -/
def titleText (a : DomNode) : String := textContent a

/-- The pairwise walk of `constructNavPanel_` over the labeled link sequence:
at each position the current and next depth labels are compared as strings
(`navLevelLt`); on a strict increase a group is opened, otherwise a leaf is
appended and the stack popped by the numeric difference.  The last link
compares against its own depth. -/
def buildWalk (st : BuildSt) : List (DomNode × Nat) → BuildSt
  | [] => st
  | (a, d1) :: rest =>
    let d2 := match rest with
      | [] => d1
      | (_, dn) :: _ => dn
    if navLevelLt d1 d2 then
      buildWalk (openGroup st (titleText a)) rest
    else
      buildWalk (popLevels (pushItem st (leafLI a)) ((d1 : Int) - (d2 : Int))) rest

/-- Close all still-open frames at the end of a section (in the source the
corresponding `LI`s are already attached; the embedding materializes them
now).  The frame count is structural fuel. -/
def closeFrames : Nat → BuildSt → List DomNode
  | _, ⟨root, []⟩ => root
  | 0, ⟨root, _⟩ => root
  | k + 1, st => closeFrames k (popOne st)

/-- Build one section's contribution: walk its labeled links with the stack
reinitialized to the root submenu (`navSubmenus = [navTopUl]`), starting
from the root items accumulated by earlier sections. -/
def buildSection (rootItems : List DomNode) (links : List (DomNode × Nat)) :
    List DomNode :=
  let st := buildWalk ⟨rootItems, []⟩ links
  closeFrames st.frames.length st

/-- `constructNavPanel_`'s loop body over all sections: label each section's
links at depth 0 and feed them to the pairwise walk, all into the shared
top-level `UL`. -/
def buildPanelItems (sections : List DomNode) : List DomNode :=
  sections.foldl (fun acc nav => buildSection acc (labelNavDepth nav 0 false)) []

/-- Modelled from the spec: the fixed id/class identifier contract names a
nav-panel id (`pagespeed.MobUtil.ElementId.NAV_PANEL`, defined in a utility
file outside this repository snapshot); only its identity matters here. -/
def navPanelId : String := "psmob-nav-panel"

/-- The whole constructed panel: a `NAV` element holding the top-level `UL`
(carrying the `open` class). -/
def constructNavPanel (sections : List DomNode) : DomNode :=
  .elem "NAV" true [("id", navPanelId)]
    [.elem "UL" true [("class", "open")] (buildPanelItems sections)]

/-- Serialization of an attribute list, as it appears inside `innerHTML`
(entity escaping is omitted: the verified properties only compare whole
serializations for equality, and the source compares whole `innerHTML`
strings the same way). -/
def attrsHTML : List (String × String) → String
  | [] => ""
  | (k, v) :: rest => " " ++ k ++ "=" ++ "\"" ++ v ++ "\"" ++ attrsHTML rest

mutual

/-- Serialization of one node, as it appears inside a surrounding
`innerHTML`. -/
def outerHTML : DomNode → String
  | .text s => s
  | .elem tag _ attrs cs =>
    "<" ++ tag ++ attrsHTML attrs ++ ">" ++ innerHTMLList cs ++ "</" ++ tag ++ ">"

/-- Serialization of a child list: `element.innerHTML`. -/
def innerHTMLList : List DomNode → String
  | [] => ""
  | c :: cs => outerHTML c ++ innerHTMLList cs

end

mutual

/-- Whether the node or any descendant is an `A` element. -/
def anchorInNode : DomNode → Bool
  | .text _ => false
  | .elem tag _ _ cs => jsUpper tag == "A" || anchorInList cs

/-- `anchorInNode` over a sibling list. -/
def anchorInList : List DomNode → Bool
  | [] => false
  | c :: cs => anchorInNode c || anchorInList cs

end

/-- A link as valid HTML permits it: an `A` element with no nested anchor
elements in its subtree. -/
def isCleanAnchor (a : DomNode) : Bool :=
  jsUpper (nodeName a) == "A" && !anchorInList (childrenOf a)

/-- One entry of the `navPanel_.getElementsByTagName('a')` scan: the
anchor's path from the panel root, its `href`, its lower-cased `innerHTML`
(the dedup label) and the tag of its `parentNode`.  The `href` property is
modelled by the raw attribute value (URL resolution is uniform across the
panel, so equal attributes resolve equally and vice versa for the relative
forms the panel contains). -/
structure AnchorRec where
  path : List Nat
  href : String
  label : String
  parentTag : String
deriving Repr, DecidableEq

mutual

/-- Collect the anchors of one subtree in document order, given the tag of
its parent and its path. -/
def scanSelf (parentTag : String) (path : List Nat) : DomNode → List AnchorRec
  | .text _ => []
  | .elem tag _ attrs cs =>
    (if jsUpper tag == "A" then
      [⟨path, ((attrs.find? (fun p => p.1 == "href")).map Prod.snd).getD "",
        jsLower (innerHTMLList cs), parentTag⟩]
    else []) ++ scanList tag path 0 cs

/-- Collect the anchors of a child list in document order. -/
def scanList (parentTag : String) (base : List Nat) (i : Nat) :
    List DomNode → List AnchorRec
  | [] => []
  | c :: rest => scanSelf parentTag (base ++ [i]) c ++ scanList parentTag base (i + 1) rest

end

/-- The document-order anchor list of the panel. -/
def anchors (panel : DomNode) : List AnchorRec :=
  scanList (nodeName panel) [] 0 (childrenOf panel)

/-- The path-free content of an anchor record: `(href, label, parentTag)`. -/
def tripleOf (a : AnchorRec) : String × String × String := (a.href, a.label, a.parentTag)

/-- The `href` of an anchor as the scan reads it. -/
def hrefOf (n : DomNode) : String := (getAttr n "href").getD ""

/-- The dedup label of an anchor: its lower-cased `innerHTML`. -/
def labelOf (n : DomNode) : String := jsLower (innerHTMLList (childrenOf n))

mutual

/-- Path-free anchor scan of one subtree (same records as `scanSelf`, paths
dropped). -/
def tscanSelf (parentTag : String) : DomNode → List (String × String × String)
  | .text _ => []
  | .elem tag _ attrs cs =>
    (if jsUpper tag == "A" then
      [(((attrs.find? (fun p => p.1 == "href")).map Prod.snd).getD "",
        jsLower (innerHTMLList cs), parentTag)]
    else []) ++ tscanList tag cs

/-- Path-free anchor scan of a child list. -/
def tscanList (parentTag : String) : List DomNode → List (String × String × String)
  | [] => []
  | c :: rest => tscanSelf parentTag c ++ tscanList parentTag rest

end

/-- Lookup in the `menuItems` dictionary (string-keyed JS object). -/
def mlook (h : String) : List (String × List String) → Option (List String)
  | [] => none
  | (k, v) :: rest => if k == h then some v else mlook h rest

/-- In-place update of one `menuItems` entry (`menuItems[href].push(label)`). -/
def mupdate (h : String) (nv : List String) :
    List (String × List String) → List (String × List String)
  | [] => []
  | (k, v) :: rest => if k == h then (k, nv) :: rest else (k, v) :: mupdate h nv rest

/-- One iteration of the dedup scan (`dedupNavMenuItems_`): a fresh href
records its first label; a known href with a novel label appends it; a
repeated `(href, label)` pair queues the anchor's parent `LI` for removal
(anchors whose parent is not an `LI` are left alone). -/
def dedupStep (st : List (String × List String) × List (List Nat)) (a : AnchorRec) :
    List (String × List String) × List (List Nat) :=
  match mlook a.href st.1 with
  | none => (st.1 ++ [(a.href, [a.label])], st.2)
  | some ls =>
    if ls.contains a.label then
      if jsUpper a.parentTag == "LI" then (st.1, st.2 ++ [a.path.dropLast]) else st
    else (mupdate a.href (ls ++ [a.label]) st.1, st.2)

/-- The `nodesToDelete` list produced by the full scan: paths of the parent
`LI`s of repeated anchors, in scan order. -/
def dedupMarks (as : List AnchorRec) : List (List Nat) :=
  (as.foldl dedupStep ([], [])).2

mutual

/-- Remove every marked node from a subtree (`node.parentNode.removeChild`
after the scan; the marks are paths computed before any removal, so the
removals act simultaneously on the original tree). -/
def stripMarked (marks : List (List Nat)) (pref : List Nat) : DomNode → DomNode
  | .text s => .text s
  | .elem tag vis attrs cs => .elem tag vis attrs (stripList marks pref 0 cs)

/-- Remove marked children (and recurse into the kept ones). -/
def stripList (marks : List (List Nat)) (pref : List Nat) (i : Nat) :
    List DomNode → List DomNode
  | [] => []
  | c :: rest =>
    (if marks.contains (pref ++ [i]) then [] else [stripMarked marks (pref ++ [i]) c]) ++
      stripList marks pref (i + 1) rest

end

/-- `dedupNavMenuItems_`: scan all panel anchors, then delete the queued
list items. -/
def dedupNavMenuItems (panel : DomNode) : DomNode :=
  stripMarked (dedupMarks (anchors panel)) [] panel

/-- Two anchors carry the same dedup key (`href` and lower-cased label). -/
def sameKey (a b : AnchorRec) : Bool := b.href == a.href && b.label == a.label

/-- Flag every anchor that repeats the `(href, label)` key of an earlier
anchor (`prev` holds the anchors already scanned). -/
def flagDup (prev : List AnchorRec) : List AnchorRec → List (AnchorRec × Bool)
  | [] => []
  | a :: rest => (a, prev.any (fun b => sameKey a b)) :: flagDup (prev ++ [a]) rest

/-- The removal marks as the claim describes them: the parent paths of the
repeated anchors whose parent is an `LI`. -/
def marksSpec (as : List AnchorRec) : List (List Nat) :=
  (flagDup [] as).filterMap
    (fun p => if p.2 && jsUpper p.1.parentTag == "LI" then some p.1.path.dropLast else none)

mutual

/-- The shape of one item the panel builder emits: a leaf `LI` holding one
clean link clone, or a group `LI` holding a `DIV`-wrapped title anchor with
text content and a submenu `UL` of further such items. -/
def goodItem : DomNode → Bool
  | .elem "LI" _ _ [a] => isCleanAnchor a
  | .elem "LI" _ _ [.elem "DIV" _ _ [.elem "A" _ _ [.text _]], .elem "UL" _ _ sub] =>
    goodItems sub
  | _ => false

/-- `goodItem` over an item list. -/
def goodItems : List DomNode → Bool
  | [] => true
  | it :: rest => goodItem it && goodItems rest

end

mutual

/-- The leaf `LI` paths contributed by the single item at path `base ++ [i]`:
the item itself when it is a leaf, or the leaf paths of its submenu when it
is a group. -/
def leafLIPathsItem (base : List Nat) (i : Nat) : DomNode → List (List Nat)
  | .elem "LI" _ _ [_] => [base ++ [i]]
  | .elem "LI" _ _ [.elem "DIV" _ _ [.elem "A" _ _ [.text _]], .elem "UL" _ _ sub] =>
    leafLIPaths (base ++ [i, 1]) 0 sub
  | _ => []

/-- The paths of the leaf `LI`s of a well-shaped item list rooted at `base`
(item `k` of the list sits at path `base ++ [i + k]`). -/
def leafLIPaths (base : List Nat) (i : Nat) : List DomNode → List (List Nat)
  | [] => []
  | it :: rest => leafLIPathsItem base i it ++ leafLIPaths base (i + 1) rest

end

/-- First link of the C3 panel: heads a submenu, so it becomes a title. -/
def c3LinkA : DomNode := .elem "A" true [("href", "#")] [.text "Foo"]

/-- The submenu's inner link. -/
def c3LinkB : DomNode := .elem "A" true [("href", "/b")] [.text "Bar"]

/-- A later leaf duplicating the title's key `(#, foo)`. -/
def c3LinkC : DomNode := .elem "A" true [("href", "#")] [.text "foo"]

/-- Another leaf with the same key, differing from `c3LinkC` only in case. -/
def c3LinkD : DomNode := .elem "A" true [("href", "#")] [.text "FOO"]

/-- The C3 nav section: its labeled links are
`[(Foo#, 0), (Bar, 1), (foo#, 0), (FOO#, 0)]`. -/
def c3Section : DomNode :=
  .elem "DIV" true []
    [.elem "UL" true []
      [.elem "LI" true [] [c3LinkA, .elem "UL" true [] [.elem "LI" true [] [c3LinkB]]],
       .elem "LI" true [] [c3LinkC],
       .elem "LI" true [] [c3LinkD]]]

/-- The panel constructed from the C3 section. -/
def c3Panel : DomNode := constructNavPanel [c3Section]

/-- The depth-10 link of the C1 failing input. -/
def c1LinkTen : DomNode := .elem "A" true [("href", "/ten")] [.text "Ten"]

/-- The depth-9 link of the C1 failing input. -/
def c1LinkNine : DomNode := .elem "A" true [("href", "/nine")] [.text "Nine"]

/-- Eleven nested `UL` levels: level 0 is the innermost `UL` holding the
depth-10 link; level 1 also holds the depth-9 link after the nested `UL`. -/
def deepUL : Nat → DomNode
  | 0 => .elem "UL" true [] [c1LinkTen]
  | 1 => .elem "UL" true [] [deepUL 0, c1LinkNine]
  | k + 2 => .elem "UL" true [] [deepUL (k + 1)]

/-- A nav section whose labeled link sequence is `[(Ten, 10), (Nine, 9)]`. -/
def c1Section : DomNode := .elem "DIV" true [] [deepUL 10]

/-- The dictionary invariant of the dedup scan: `menu` knows an href iff some
scanned anchor had it, and then stores exactly the labels scanned with it. -/
def menuInv (menu : List (String × List String)) (prev : List AnchorRec) : Prop :=
  ∀ h : String,
    match mlook h menu with
    | none => ∀ b ∈ prev, b.href ≠ h
    | some ls =>
      ∀ l : String, ls.contains l = true ↔ ∃ b ∈ prev, b.href = h ∧ b.label = l

/-- The builder-stack invariant: the root items and every open frame's items
are good item lists. -/
def goodSt (st : BuildSt) : Prop :=
  goodItems st.root = true ∧ ∀ f ∈ st.frames, goodItems f.items = true

/-- The path-free anchor triples of a whole panel, in document order: what
`getElementsByTagName('a')` exposes of each anchor once sibling indices have
shifted. -/
def panelTriples (panel : DomNode) : List (String × String × String) :=
  tscanList (nodeName panel) (childrenOf panel)

/-- First link of the C10 panel: a plain leaf holding the key `(#, foo)`. -/
def c10LinkA : DomNode := .elem "A" true [("href", "#")] [.text "Foo"]

/-- Second link: heads a submenu, so it becomes a `DIV`-parented title that
repeats the key `(#, foo)` of the earlier leaf. -/
def c10LinkB : DomNode := .elem "A" true [("href", "#")] [.text "foo"]

/-- The submenu's inner link. -/
def c10LinkC : DomNode := .elem "A" true [("href", "/b")] [.text "Bar"]

/-- The C10 nav section: its labeled links are
`[(Foo#, 0), (foo#, 0), (Bar, 1)]`. -/
def c10Section : DomNode :=
  .elem "DIV" true []
    [.elem "UL" true []
      [.elem "LI" true [] [c10LinkA],
       .elem "LI" true [] [c10LinkB, .elem "UL" true []
         [.elem "LI" true [] [c10LinkC]]]]]

/-- The panel constructed from the C10 section. -/
def c10Panel : DomNode := constructNavPanel [c10Section]

/-- A page element as the offset pre-pass reads it: its `class` and `id`
attributes, its computed `position`, its computed `top` already passed
through `pagespeed.MobUtil.pixelValue` (a pixel count, or `none` when `top`
is not a pixel value — the parser itself lives in a utility file outside
this repository snapshot), and its element children. -/
inductive StyledNode where
  | mk (className : String) (idAttr : String) (position : String)
      (topPx : Option Int) (children : List StyledNode)
deriving Repr

/-- The element's `className`. -/
def snClass : StyledNode → String
  | .mk c _ _ _ _ => c

/-- The element's `id`. -/
def snId : StyledNode → String
  | .mk _ i _ _ _ => i

/-- The element's computed `position`. -/
def snPos : StyledNode → String
  | .mk _ _ p _ _ => p

/-- The element's parsed pixel `top`, or `none`. -/
def snTop : StyledNode → Option Int
  | .mk _ _ _ t _ => t

/-- The element's children. -/
def snChildren : StyledNode → List StyledNode
  | .mk _ _ _ _ cs => cs

/-- Modelled from the spec: the progress scrim's class name
(`pagespeed.MobUtil.ElementId.PROGRESS_SCRIM`, defined in a utility file
outside this repository snapshot); only its identity matters here. -/
def progressScrim : String := "psmob-progress-scrim"

/-- The subtree-pruning guard of `findElementsToOffsetHelper_`: skip the
scrim and everything whose class or id starts with `psmob-`. -/
def offsetEligible (e : StyledNode) : Bool :=
  !(snClass e == progressScrim) && !((snClass e).startsWith "psmob-") &&
    !((snId e).startsWith "psmob-")

mutual

/-- `findElementsToOffsetHelper_`, reporting the added elements by path: on
an eligible element, add it when its position is non-static, its `top` is a
pixel value and it is `fixed` (or `absolute` while no non-static ancestor
has been passed), then recurse into the children, with `fixedPositionOnly`
switched on below any non-static element. -/
def findElementsToOffsetHelper : StyledNode → Bool → List Nat → List (List Nat)
  | e@(.mk _ _ pos top cs), fixedPositionOnly, path =>
    if offsetEligible e then
      if pos == "static" then
        findElementsToOffsetList cs fixedPositionOnly path 0
      else
        (match top with
         | some _ =>
           if (pos == "fixed") || (!fixedPositionOnly && (pos == "absolute")) then
             [path]
           else []
         | none => []) ++ findElementsToOffsetList cs true path 0
    else []

/-- The helper's child loop. -/
def findElementsToOffsetList :
    List StyledNode → Bool → List Nat → Nat → List (List Nat)
  | [], _, _, _ => []
  | c :: rest, fixedPositionOnly, base, i =>
    findElementsToOffsetHelper c fixedPositionOnly (base ++ [i]) ++
      findElementsToOffsetList rest fixedPositionOnly base (i + 1)

end

/-- `findElementsToOffset_`: start the pre-pass at the body, with all
allowed positions. -/
def findElementsToOffset (body : StyledNode) : List (List Nat) :=
  findElementsToOffsetHelper body false []

mutual

/-- Every element path of a subtree, in document order (the root is `[]`). -/
def allRel : StyledNode → List (List Nat)
  | .mk _ _ _ _ cs => [] :: allRelList cs 0

/-- Every element path of a child list, child `k` of the list contributing
paths headed by `i + k`. -/
def allRelList : List StyledNode → Nat → List (List Nat)
  | [], _ => []
  | c :: rest, i => (allRel c).map (fun rel => i :: rel) ++ allRelList rest (i + 1)

end

/-- The element a path denotes, if any. -/
def snAt : StyledNode → List Nat → Option StyledNode
  | e, [] => some e
  | .mk _ _ _ _ cs, j :: rest =>
    match cs.get? j with
    | some c => snAt c rest
    | none => none

/-- Whether every element on a path, endpoints included, passes the pruning
guard. -/
def pathEligible : StyledNode → List Nat → Bool
  | e, [] => offsetEligible e
  | .mk cls idA pos top cs, j :: rest =>
    offsetEligible (.mk cls idA pos top cs) &&
      (match cs.get? j with
       | some c => pathEligible c rest
       | none => false)

/-- Whether every strict ancestor of a path's endpoint (the root included)
has `static` position. -/
def strictAncestorsStatic : StyledNode → List Nat → Bool
  | _, [] => true
  | .mk _ _ pos _ cs, j :: rest =>
    (pos == "static") &&
      (match cs.get? j with
       | some c => strictAncestorsStatic c rest
       | none => false)

/-- The declarative membership condition of the offset pre-pass: the path
leads through unpruned elements to an element with a pixel `top` that is
`fixed`, or `absolute` with every strict ancestor static (and the initial
flag unset). -/
def offPred (e : StyledNode) (fixedPositionOnly : Bool) (rel : List Nat) : Bool :=
  pathEligible e rel &&
    (match snAt e rel with
     | some t =>
       (snTop t).isSome &&
         ((snPos t == "fixed") ||
           ((snPos t == "absolute") &&
             (!fixedPositionOnly && strictAncestorsStatic e rel)))
     | none => false)

/-- The C7 counterexample child: `relative` position with `top: 10px`. -/
def c7Child : StyledNode := .mk "" "" "relative" (some 10) []

/-- The C7 counterexample body: static, holding the relative child. -/
def c7Body : StyledNode := .mk "" "" "static" none [c7Child]

/-- One tracked offset element as `redrawHeader_`'s loop reads it: its
computed `position` and parsed computed `top` at redraw time, the parsed
inline `el.style.top`, and its absolute position
(`pagespeed.MobUtil.boundingRect(el).top`). -/
structure OffEl where
  position : String
  topPx : Option Int
  styleTop : Option Int
  rectTop : Int
deriving Repr, DecidableEq

/-- The redraw state `redrawHeader_` touches: `headerBarHeight_` (−1 before
the first run), `redrawNavCalled_`, the scroll position and the tracked
offset elements.  The header-bar transform, spacer, and logo updates of the
source act on fields none of the verified properties mention and are not
modelled. -/
structure HeaderState where
  headerBarHeight : Int
  redrawNavCalled : Bool
  scrollY : Int
  offsets : List OffEl
deriving Repr, DecidableEq

/-- `oldHeight` as the source computes it: the fresh measurement on the
first run (`headerBarHeight_ == -1`), the stored height afterwards. -/
def oldHeightOf (st : HeaderState) (oldMeasure : Int) : Int :=
  if st.headerBarHeight == -1 then oldMeasure else st.headerBarHeight

/-- `redrawHeader_` over the modelled state: `oldMeasure` is the pre-resize
transformed-size reading, `newMeasure` the post-resize one (`newHeight`).
Each tracked element with non-static position and a pixel computed `top` has
its inline top set to `boundingRect(el).top + newHeight` on the first run,
and moved by `newHeight − oldHeight` on later runs when its inline top
parses; `scrollBy` fires only on later runs with `newHeight != oldHeight`,
and is returned as the second component (the compensation call, if any). -/
def redrawHeader (st : HeaderState) (oldMeasure newMeasure : Int) :
    HeaderState × Option Int :=
  let oldHeight := oldHeightOf st oldMeasure
  let newHeight := newMeasure
  let newOffsets := st.offsets.map (fun el =>
    if !(el.position == "static") && el.topPx.isSome then
      if st.redrawNavCalled then
        match el.styleTop with
        | some oldTop => { el with styleTop := some (oldTop + (newHeight - oldHeight)) }
        | none => el
      else
        { el with styleTop := some (el.rectTop + newHeight) }
    else el)
  let scrollCall : Option Int :=
    if st.redrawNavCalled && !(newHeight == oldHeight) then
      some (newHeight - oldHeight)
    else none
  ({ headerBarHeight := newHeight
     redrawNavCalled := true
     scrollY :=
       match scrollCall with
       | some d => st.scrollY + d
       | none => st.scrollY
     offsets := newOffsets }, scrollCall)

mutual

/-- First node satisfying a predicate, in document (preorder) order, by
path — `getElementById` resolution order. -/
def findP (pred : DomNode → Bool) : DomNode → Option (List Nat)
  | .text s => if pred (.text s) then some [] else none
  | .elem tag vis attrs cs =>
    if pred (.elem tag vis attrs cs) then some [] else findPL pred cs 0

/-- `findP` over a child list, child `k` contributing paths headed by
`i + k`. -/
def findPL (pred : DomNode → Bool) : List DomNode → Nat → Option (List Nat)
  | [], _ => none
  | c :: rest, i =>
    match findP pred c with
    | some p => some (i :: p)
    | none => findPL pred rest (i + 1)

end

/-- Whether a node carries the given `id` attribute (the value the combined
`getElementById(id) || querySelector('[id=...]')` lookup tests). -/
def idPred (id : String) (n : DomNode) : Bool := getAttr n "id" == some id

/-- `document.getElementById(id) || document.querySelector('[id=...]')`:
the first node in document order whose `id` attribute equals `id`. -/
def resolveId (d : DomNode) (id : String) : Option (List Nat) :=
  findP (idPred id) d

/-- The node at a path, if any. -/
def nodeAt : DomNode → List Nat → Option DomNode
  | d, [] => some d
  | .text _, _ :: _ => none
  | .elem _ _ _ cs, j :: rest =>
    match cs.get? j with
    | some c => nodeAt c rest
    | none => none

/-- `nodeAt` with a default for the never-reached miss. -/
def nodeAtD (d : DomNode) (p : List Nat) : DomNode := (nodeAt d p).getD (.text "")

/-- Set (or add) one attribute in an attribute list. -/
def setAttrKV : List (String × String) → String → String → List (String × String)
  | [], k, v => [(k, v)]
  | (k2, v2) :: rest, k, v =>
    if k2 == k then (k, v) :: rest else (k2, v2) :: setAttrKV rest k v

/-- Apply a function to the child at one index. -/
def updateIdx : List DomNode → Nat → (DomNode → DomNode) → List DomNode
  | [], _, _ => []
  | c :: cs, 0, f => f c :: cs
  | c :: cs, j + 1, f => c :: updateIdx cs j f

/-- Remove the child at one index. -/
def removeIdx : List DomNode → Nat → List DomNode
  | [], _ => []
  | _ :: cs, 0 => cs
  | c :: cs, j + 1 => c :: removeIdx cs j

/-- `parent.id = v` at a path: rewrite the `id` attribute of the addressed
node. -/
def setIdAt : List Nat → String → DomNode → DomNode
  | _, _, .text s => .text s
  | [], v, .elem tag vis attrs cs => .elem tag vis (setAttrKV attrs "id" v) cs
  | j :: rest, v, .elem tag vis attrs cs =>
    .elem tag vis attrs (updateIdx cs j (setIdAt rest v))

/-- Detach the node at a (nonempty) path from its parent. -/
def removeAt : List Nat → DomNode → DomNode
  | _, .text s => .text s
  | [], .elem tag vis attrs cs => .elem tag vis attrs cs
  | j :: rest, .elem tag vis attrs cs =>
    match rest with
    | [] => .elem tag vis attrs (removeIdx cs j)
    | r2 :: rest2 => .elem tag vis attrs (updateIdx cs j (removeAt (r2 :: rest2)))

/-- `document.body.appendChild(n)` with the modelled root standing for the
body: append `n` as the root's last child. -/
def appendToRoot : DomNode → DomNode → DomNode
  | .text s, _ => .text s
  | .elem tag vis attrs cs, n => .elem tag vis attrs (cs ++ [n])

/-- `id.match(/^PageSpeed-.*-[0-9]+$/)`: a `PageSpeed-` prefix and a final
hyphen followed by one or more digits. -/
def psIdMatch (s : String) : Bool :=
  s.startsWith "PageSpeed-" &&
    (let cs := (s.data.drop 10).reverse
     let ds := cs.takeWhile (fun c => c.isDigit)
     !ds.isEmpty && ((cs.drop ds.length).head? == some '-'))

/-- The source's `id.replace` with the pattern `-[0-9]+$` and an empty
replacement: strip one final hyphen-digits group, if present. -/
def stripTrailNum (s : String) : String :=
  let cs := s.data.reverse
  let ds := cs.takeWhile (fun c => c.isDigit)
  if !ds.isEmpty && ((cs.drop ds.length).head? == some '-') then
    String.mk ((cs.drop (ds.length + 1)).reverse)
  else s

/-- Own-property lookup in the `parents` dictionary: the part of
`parent.id in parents` and `parents[parent.id]` that sees the keys the loop
itself assigned.  Both JS operations also consult the prototype chain of the
plain `{}` object; that inherited layer is `protoKeys` below, and the two
are combined where the dictionary is read (`stepCore`). -/
def plook (k : String) : List (String × Bool) → Option Bool
  | [] => none
  | (k2, v) :: rest => if k2 == k then some v else plook k rest

/-- The property names every plain JS object inherits from
`Object.prototype`: for these keys `key in parents` is true even on `{}`,
and `parents[key]` reads the inherited function or object — a truthy
value — unless the loop has shadowed the key with an own assignment. -/
def protoKeys : List String :=
  ["constructor", "hasOwnProperty", "isPrototypeOf", "propertyIsEnumerable",
   "toLocaleString", "toString", "valueOf", "__proto__",
   "__defineGetter__", "__defineSetter__", "__lookupGetter__",
   "__lookupSetter__"]

/-- The id-discovery loop state: the document (its `id` writes included),
the `parents` dictionary and the pushed section paths (`elements`). -/
structure NavSt where
  doc : DomNode
  parents : List (String × Bool)
  elements : List (List Nat)
deriving Repr

/-- What one loop iteration did, for auditing the claims: the parent
identity used, whether a parent existed, the parent's and element's paths,
whether the enlarge heuristic ran, the decision governing the push, and the
pushed path (if any). -/
structure ItemEv where
  pid : String
  hasParent : Bool
  parentPath : List Nat
  childPath : List Nat
  evaluated : Bool
  decision : Bool
  pushed : Option (List Nat)
deriving Repr, DecidableEq

/-- The parent-present core of one id-loop iteration, after the parent
identity `pid`, the parent and element paths, the element's sibling index
and the (possibly id-rewritten) document have been computed.  The source
tests `!(parent.id in parents)` and then `!parents[parent.id]`: an own key
shadows the prototype, so an identity the loop recorded follows its stored
decision (push the child when the parent was not enlarged, nothing
otherwise); an identity inherited from `Object.prototype` (never recorded —
the `in` test blocks the first branch) reads a truthy function, so the
element is silently skipped, the heuristic never running; only an identity
absent from both layers evaluates the enlarge heuristic and pushes parent
or child by its decision. -/
def stepCore (st : NavSt) (pid : String) (pp p : List Nat) (i : Nat)
    (doc2 : DomNode) : NavSt × ItemEv :=
  match plook pid st.parents with
  | none =>
    if protoKeys.contains pid then
      ({ doc := doc2, parents := st.parents, elements := st.elements },
       { pid := pid, hasParent := true, parentPath := pp, childPath := p,
         evaluated := false, decision := true, pushed := none })
    else
      let dec := canEnlargeNav (nodeAtD doc2 pp) i
      ({ doc := doc2, parents := st.parents ++ [(pid, dec)],
         elements := st.elements ++ [if dec then pp else p] },
       { pid := pid, hasParent := true, parentPath := pp, childPath := p,
         evaluated := true, decision := dec,
         pushed := some (if dec then pp else p) })
  | some dec =>
    ({ doc := doc2, parents := st.parents,
       elements := st.elements ++ (if dec then [] else [p]) },
     { pid := pid, hasParent := true, parentPath := pp, childPath := p,
       evaluated := false, decision := dec,
       pushed := if dec then none else some p })

/-- One iteration of `findNavSections_`'s id loop: resolve the id (a miss
makes `element.parentNode` throw — modelled as `none`), synthesize the
parent's id when it has none (truncating a `PageSpeed-…-N` child id,
otherwise `PageSpeed-<id>-P`), then run the parent-present core on the
resulting parent identity.  The modelled root stands for the document, so
only the root path has no parent. -/
def processId (st : NavSt) (id : String) : Option (NavSt × ItemEv) :=
  match resolveId st.doc id with
  | none => none
  | some [] =>
    some ({ st with elements := st.elements ++ [([] : List Nat)] },
      { pid := "", hasParent := false, parentPath := [], childPath := [],
        evaluated := false, decision := false, pushed := some [] })
  | some (j :: rest) =>
    let p := j :: rest
    let pp := p.dropLast
    let eId := jsIdOf (nodeAtD st.doc p)
    let doc2 :=
      if jsIdOf (nodeAtD st.doc pp) == "" then
        if psIdMatch eId then setIdAt pp (stripTrailNum eId) st.doc
        else setIdAt pp ("PageSpeed-" ++ eId ++ "-P") st.doc
      else st.doc
    some (stepCore st (jsIdOf (nodeAtD doc2 pp)) pp p (p.getLastD 0) doc2)

/-- The id loop: abort the whole discovery on the first iteration that
throws; otherwise thread the state and collect the events. -/
def processIds : NavSt → List String → Option (NavSt × List ItemEv)
  | st, [] => some (st, [])
  | st, id :: rest =>
    match processId st id with
    | none => none
    | some (st2, ev) =>
      match processIds st2 rest with
      | none => none
      | some (stF, evs) => some (stF, ev :: evs)

/-- `findNavSections_`: an explicit panel is re-attached as the body's last
child and `navSections_` is left empty; otherwise, with an id list present,
the id loop runs (its throw aborting everything); with neither, no sections.
The result is the final document and the pushed section paths. -/
def findNavSections (doc : DomNode) (navIds : Option (List String)) :
    Option (DomNode × List (List Nat)) :=
  match resolveId doc navPanelId with
  | some p => some (appendToRoot (removeAt p doc) (nodeAtD doc p), [])
  | none =>
    match navIds with
    | none => some (doc, [])
    | some ids =>
      match processIds ⟨doc, [], []⟩ ids with
      | none => none
      | some (st, _) => some (st.doc, st.elements)

mutual

/-- How many nodes of a subtree satisfy a predicate. -/
def countP (pred : DomNode → Bool) : DomNode → Nat
  | .text s => if pred (.text s) then 1 else 0
  | .elem tag vis attrs cs =>
    (if pred (.elem tag vis attrs cs) then 1 else 0) + countPL pred cs

/-- `countP` over a child list. -/
def countPL (pred : DomNode → Bool) : List DomNode → Nat
  | [] => 0
  | c :: rest => countP pred c + countPL pred rest

end

/-- How many nodes carry the given id attribute. -/
def countById (d : DomNode) (id : String) : Nat := countP (idPred id) d

/-- The C8 target section: resolvable by id. -/
def c8Target : DomNode := .elem "DIV" true [("id", "b")] [.text "menu"]

/-- The C8 document: a body holding only the target. -/
def c8Doc : DomNode := .elem "BODY" true [] [c8Target]

/-- The C9 explicit panel. -/
def c9Panel : DomNode := .elem "NAV" true [("id", navPanelId)] [.text "nav"]

/-- The C9 document: the panel buried inside a wrapper, not a direct body
child. -/
def c9Doc : DomNode :=
  .elem "BODY" true []
    [.elem "DIV" true [] [c9Panel], .elem "P" true [] [.text "x"]]

/-- The C6 document: one id-less parent holding two identified children. -/
def c6Doc : DomNode :=
  .elem "BODY" true []
    [.elem "DIV" true []
      [.elem "DIV" true [("id", "n1")] [.text "one"],
       .elem "DIV" true [("id", "n2")] [.text "two"]]]

/-- The C6 id list: two children of the same parent, the first repeated. -/
def c6Ids : List String := ["n1", "n2", "n1"]

/-- The C6 initial state. -/
def c6St0 : NavSt := ⟨c6Doc, [], []⟩

/-- The C6 run's final state and events. -/
def c6Run : NavSt × List ItemEv :=
  (processIds c6St0 c6Ids).getD (⟨c6Doc, [], []⟩, [])

/-- The C6 counterexample document: the identified child's parent carries
the author-chosen id `toString`, a key every plain JS object inherits. -/
def c6BadDoc : DomNode :=
  .elem "BODY" true []
    [.elem "DIV" true [("id", "toString")]
      [.elem "DIV" true [("id", "n1")] [.text "one"]]]

/-- The C6 counterexample initial state. -/
def c6BadSt0 : NavSt := ⟨c6BadDoc, [], []⟩

/-- The push discipline of one id-loop iteration with a parent: an
evaluating iteration pushes the parent when the decision enlarged it and the
child otherwise; a non-evaluating iteration pushes nothing when the recorded
decision enlarged the parent and the child otherwise. -/
def pushRule (ev : ItemEv) : Prop :=
  ev.hasParent = true →
    ev.pushed = (if ev.evaluated then
        some (if ev.decision then ev.parentPath else ev.childPath)
      else if ev.decision then none else some ev.childPath)

/-- The id-loop bookkeeping invariant tying the `parents` dictionary to the
events so far: an own-layer identity maps to the one decision every event
with that identity carries, the earliest such event being the evaluating
one; an identity in neither layer was never used; inherited identities
never enter the dictionary, and every event using one was silently skipped
(never evaluated, nothing pushed, the truthy read standing as its
decision). -/
def navInv (evs : List ItemEv) (parents : List (String × Bool)) : Prop :=
  (∀ k : String, plook k parents = none → protoKeys.contains k = false →
    ∀ e ∈ evs, e.hasParent = true → e.pid ≠ k) ∧
  (∀ (k : String) (d : Bool), plook k parents = some d →
    (∃ e ∈ evs, e.hasParent = true ∧ e.pid = k) ∧
    (∀ (pre : List ItemEv) (ev : ItemEv) (post : List ItemEv),
      evs = pre ++ ev :: post → ev.hasParent = true → ev.pid = k →
      ((ev.evaluated = true ↔ ∀ e ∈ pre, e.hasParent = true → e.pid ≠ k) ∧
        ev.decision = d))) ∧
  (∀ e ∈ evs, e.hasParent = true → protoKeys.contains e.pid = false →
    ∃ d, plook e.pid parents = some d) ∧
  (∀ (k : String) (d : Bool), plook k parents = some d →
    protoKeys.contains k = false) ∧
  (∀ e ∈ evs, e.hasParent = true → protoKeys.contains e.pid = true →
    e.evaluated = false ∧ e.pushed = none ∧ e.decision = true)

mutual

/-- The depth labeler agrees with spec-side list-nesting counting when its
`(currDepth, inUl)` state is `(u - 1, u ≠ 0)` for some list-nesting count `u`. -/
theorem labelNavDepth_eq_nesting (node : DomNode) (u : Nat) :
    labelNavDepth node (u - 1) (!(u == 0)) = anchorsWithListNesting node u := by
  match node with
  | .text _ => rfl
  | .elem t v a cs =>
    simp only [labelNavDepth, anchorsWithListNesting]
    exact labelNavChildren_eq_nesting cs u

/-- Sibling-list version of `labelNavDepth_eq_nesting`. -/
theorem labelNavChildren_eq_nesting (cs : List DomNode) (u : Nat) :
    labelNavChildren cs (u - 1) (!(u == 0)) = anchorsWithListNestingList cs u := by
  match cs with
  | [] => rfl
  | child :: rest =>
    simp only [labelNavChildren, anchorsWithListNestingList]
    have hrest := labelNavChildren_eq_nesting rest u
    rw [hrest]
    by_cases hUL : upperName child == "UL"
    · simp only [hUL, if_pos]
      have hd : (if (!(u == 0)) = true then u - 1 + 1 else u - 1) = (u + 1) - 1 := by
        cases u <;> simp
      have hb : (true : Bool) = (!(u + 1 == 0)) := by simp
      rw [hd, hb, labelNavDepth_eq_nesting child (u + 1)]
    · simp only [if_neg hUL]
      rw [labelNavDepth_eq_nesting child u]

end

/-- The sibling walk equals the declarative conjunction of its three
refusal conditions, for any suffix whose state is consistent (`saw` holds
exactly when the element's index lies before the suffix, and the
accumulated pre-element text has not yet exceeded the budget). -/
theorem enlargeWalk_characterization (cs : List DomNode) :
    ∀ (j i : Nat) (eVis saw : Bool) (pre : Nat),
      saw = decide (i < j) → pre ≤ 60 →
      enlargeWalk cs j i eVis saw pre =
        (!imgViolation eVis i j cs && !textAfterViolation eVis i j cs &&
          decide (pre + preTextSum eVis i j cs ≤ 60)) := by
  induction cs with
  | nil =>
    intro j i eVis saw pre hsaw hpre
    simp [enlargeWalk, imgViolation, textAfterViolation, preTextSum]
    omega
  | cons c rest ih =>
    intro j i eVis saw pre hsaw hpre
    simp only [enlargeWalk, imgViolation, textAfterViolation, preTextSum]
    by_cases hji : (j == i) = true
    · have hj : j = i := by simpa using hji
      subst hj
      have hs1 : (true : Bool) = decide (j < j + 1) := by simp
      rw [if_pos hji, ih (j + 1) j eVis true pre hs1 hpre]
      simp [hji]
    · have hj : ¬ j = i := fun h => hji (by simp [h])
      rw [if_neg hji]
      have hsaw1 : saw = decide (i < j + 1) := by
        rw [hsaw]
        rcases Nat.lt_trichotomy i j with h | h | h
        · simp [h, Nat.lt_succ_of_lt h]
        · exact absurd h.symm hj
        · simp [Nat.not_lt.mpr (Nat.le_of_lt h), Nat.not_lt.mpr (Nat.succ_le_of_lt h)]
      by_cases hskip : (offsetParentIsNull c && eVis) = true
      · rw [if_pos hskip, ih (j + 1) i eVis saw pre hsaw1 hpre]
        have hq : qualifies eVis c = false := by
          simp only [qualifies, hskip]
          rfl
        simp [hq, hji]
      · rw [if_neg hskip]
        have hq : qualifies eVis c = true := by
          simp only [qualifies, hskip]
          rfl
        by_cases himg : hasImages eVis c = true
        · rw [if_pos himg]
          simp [himg, hq, hji]
        · rw [if_neg himg]
          by_cases htext : (0 < trimLen (textContent c))
          · rw [if_pos (by simpa using htext)]
            by_cases hafter : saw = true
            · have hij : i < j := by
                rw [hsaw] at hafter
                simpa using hafter
              rw [if_pos hafter]
              simp [hq, hij, htext, himg]
            · have hsf : saw = false := by
                cases saw
                · rfl
                · exact absurd rfl hafter
              have hij : ¬ i < j := by
                rw [hsf] at hsaw
                simpa using hsaw.symm
              have hji2 : j < i := by omega
              rw [if_neg hafter]
              by_cases hover : (60 < pre + trimLen (textContent c))
              · rw [if_pos (by simpa using hover)]
                have : ¬ (pre + ((if j < i ∧ qualifies eVis c = true then
                    trimLen (textContent c) else 0) +
                    preTextSum eVis i (j + 1) rest) ≤ 60) := by
                  rw [if_pos ⟨hji2, hq⟩]
                  omega
                simp [this]
              · rw [if_neg (by simpa using hover)]
                have hpre2 : pre + trimLen (textContent c) ≤ 60 := by omega
                rw [ih (j + 1) i eVis saw (pre + trimLen (textContent c)) hsaw1 hpre2]
                have hij2 : ¬ i < j := by omega
                have himg2 : hasImages eVis c = false := by
                  cases h : hasImages eVis c
                  · rfl
                  · exact absurd h himg
                simp [hq, hij2, hji2, himg2, Nat.add_assoc]
          · rw [if_neg (by simpa using htext)]
            rw [ih (j + 1) i eVis saw pre hsaw1 hpre]
            have ht0 : trimLen (textContent c) = 0 := by omega
            have himg2 : hasImages eVis c = false := by
              cases h : hasImages eVis c
              · rfl
              · exact absurd h himg
            simp [hq, ht0, hji, himg2]

/-- Claim C5 (amended): given a parent, the enlarge heuristic returns true
exactly when the parent's whole subtree (the element's own subtree included)
contains no script, no non-skipped sibling contains a disqualifying image
(a visible image when the element is visible, any image when it is not),
no non-skipped sibling after the element carries non-whitespace text, and
the non-whitespace text of the non-skipped siblings before the element
totals at most 60 characters — a sibling being skipped exactly when it is
invisible while the element is visible. -/
theorem C5_canEnlargeNav_characterization (parent : DomNode) (i : Nat) :
    canEnlargeNav parent i =
      (!scriptInList (childrenOf parent) &&
        (let eVis := !offsetParentIsNull (elemAt (childrenOf parent) i)
         !imgViolation eVis i 0 (childrenOf parent) &&
         !textAfterViolation eVis i 0 (childrenOf parent) &&
         decide (preTextSum eVis i 0 (childrenOf parent) ≤ 60))) := by
  unfold canEnlargeNav
  by_cases hs : scriptInList (childrenOf parent) = true
  · simp [hs]
  · have hs2 : scriptInList (childrenOf parent) = false := by
      cases h : scriptInList (childrenOf parent)
      · rfl
      · exact absurd h hs
    rw [if_neg hs, hs2]
    rw [enlargeWalk_characterization (childrenOf parent) 0 i
      (!offsetParentIsNull (elemAt (childrenOf parent) i)) false 0 (by simp)
      (by omega)]
    simp

/-- Claim C5 (counterexample): the claim says the heuristic refuses only for
sibling-subtree scripts/images, text after the element, or more than 60
characters of text before it, and returns true in all other cases; but for an
element whose own subtree contains the only script, every claim condition is
clear while the source still returns false (its script test covers the whole
parent subtree, the element included). -/
theorem C5_script_inside_element_refutes_claim :
    canEnlargeNav c5Parent 0 = false ∧ claimEnlarge c5Parent 0 = true :=
  ⟨rfl, rfl⟩

/-- Claim C1 (code bug witness): on the realizable labeled sequence
`[(Ten, 10), (Nine, 9)]` the current depth 10 is not numerically below the
next depth 9, so the claim (and the source's own comment) require the link to
be appended as a leaf with one stack pop; but the source compares the
`getAttribute` strings, `"10" < "9"` holds lexicographically, and the builder
instead opens a new group titled `Ten` containing `Nine` as its nested leaf. -/
theorem C1_depth_labels_compared_as_strings :
    labelNavDepth c1Section 0 false = [(c1LinkTen, 10), (c1LinkNine, 9)] ∧
    ¬ (10 < 9) ∧
    navLevelLt 10 9 = true ∧
    buildPanelItems [c1Section] =
      [DomNode.elem "LI" true []
        [DomNode.elem "DIV" true []
          [DomNode.elem "A" true [("href", "#")] [DomNode.text "Ten"]],
         DomNode.elem "UL" true [] [DomNode.elem "LI" true [] [c1LinkNine]]]] :=
  ⟨rfl, by omega, rfl, rfl⟩

/-- Looking a key up after appending a fresh entry at the end. -/
theorem mlook_append (menu : List (String × List String)) (h2 h : String)
    (v : List String) :
    mlook h2 (menu ++ [(h, v)]) =
      match mlook h2 menu with
      | some x => some x
      | none => if h == h2 then some v else none := by
  induction menu with
  | nil => simp [mlook]
  | cons e rest ih =>
    obtain ⟨k, w⟩ := e
    by_cases hk : (k == h2) = true
    · simp [mlook, hk]
    · simp only [List.cons_append, mlook, if_neg hk]
      exact ih

/-- Looking a key up after updating another (or the same) entry in place. -/
theorem mlook_mupdate (menu : List (String × List String)) (h2 h : String)
    (nv : List String) :
    mlook h2 (mupdate h nv menu) =
      if h = h2 then (mlook h menu).map (fun _ => nv) else mlook h2 menu := by
  induction menu with
  | nil => simp [mlook, mupdate]
  | cons e rest ih =>
    obtain ⟨k, w⟩ := e
    by_cases hk : (k == h) = true
    · have hk2 : k = h := by simpa using hk
      subst hk2
      by_cases he : k = h2
      · subst he
        simp [mupdate, mlook]
      · have hb : (k == h2) = false := by simpa using he
        simp [mupdate, mlook, hb, he]
    · have hkn : ¬ k = h := by simpa using hk
      by_cases he : h = h2
      · subst he
        have hb : (k == h) = false := by simpa using hkn
        simp [mupdate, mlook, hb, hk, ih]
      · simp only [mupdate, if_neg hk, mlook]
        by_cases hb : (k == h2) = true
        · simp [hb, he]
        · simp [hb, ih, he]

/-- `prev.any (sameKey a)` decides the existence of an earlier anchor with
the same `(href, label)` key. -/
theorem sameKey_any (prev : List AnchorRec) (a : AnchorRec) :
    prev.any (fun b => sameKey a b) = true ↔
      ∃ b ∈ prev, b.href = a.href ∧ b.label = a.label := by
  rw [List.any_eq_true]
  constructor
  · rintro ⟨b, hb, hk⟩
    refine ⟨b, hb, ?_, ?_⟩
    · exact eq_of_beq (by exact (Bool.and_eq_true _ _ |>.mp hk).1)
    · exact eq_of_beq (by exact (Bool.and_eq_true _ _ |>.mp hk).2)
  · rintro ⟨b, hb, h1, h2⟩
    exact ⟨b, hb, by simp [sameKey, h1, h2]⟩

/-- `flagDup` over an appended list splits at the append. -/
theorem flagDup_append (xs ys : List AnchorRec) :
    ∀ prev, flagDup prev (xs ++ ys) = flagDup prev xs ++ flagDup (prev ++ xs) ys := by
  induction xs with
  | nil => intro prev; simp [flagDup]
  | cons a rest ih =>
    intro prev
    simp only [List.cons_append, flagDup, List.append_eq]
    rw [ih (prev ++ [a])]
    simp [List.append_assoc]

/-- Membership in `flagDup`: an entry is an anchor of the list together with
the duplicate flag computed from everything before it. -/
theorem flagDup_mem (as : List AnchorRec) :
    ∀ (prev : List AnchorRec) (a : AnchorRec) (d : Bool),
      ((a, d) ∈ flagDup prev as ↔
        ∃ xs ys, as = xs ++ a :: ys ∧ d = (prev ++ xs).any (fun b => sameKey a b)) := by
  induction as with
  | nil =>
    intro prev a d
    simp [flagDup]
  | cons c rest ih =>
    intro prev a d
    simp only [flagDup, List.mem_cons]
    constructor
    · rintro (h | h)
      · obtain ⟨h1, h2⟩ := Prod.mk.injEq .. ▸ h
        refine ⟨[], rest, ?_, ?_⟩
        · simp [h1.symm]
        · simpa [h2] using (by simp [h1])
      · obtain ⟨xs, ys, hsplit, hd⟩ := (ih (prev ++ [c]) a d).mp h
        refine ⟨c :: xs, ys, by simp [hsplit], ?_⟩
        simpa [List.append_assoc] using hd
    · rintro ⟨xs, ys, hsplit, hd⟩
      cases xs with
      | nil =>
        left
        simp only [List.nil_append] at hsplit
        obtain ⟨hc, hr⟩ := List.cons.injEq .. ▸ hsplit
        simp only [List.append_nil] at hd
        simp [hc, hd]
      | cons x xt =>
        right
        simp only [List.cons_append, List.cons.injEq] at hsplit
        obtain ⟨hc, hr⟩ := hsplit
        refine (ih (prev ++ [c]) a d).mpr ⟨xt, ys, hr, ?_⟩
        subst hc
        simpa [List.append_assoc] using hd

/-- The first projection of `flagDup` is the scanned list itself. -/
theorem flagDup_fst (as : List AnchorRec) :
    ∀ prev, (flagDup prev as).map Prod.fst = as := by
  induction as with
  | nil => intro prev; simp [flagDup]
  | cons a rest ih => intro prev; simp [flagDup, ih]

/-- The empty dictionary is consistent with an empty scan. -/
theorem menuInv_nil : menuInv [] [] := by
  intro h
  simp [mlook]

/-- Scanning an anchor with a fresh href extends the invariant when its
entry is appended. -/
theorem menuInv_extend_fresh (menu : List (String × List String))
    (prev : List AnchorRec) (a : AnchorRec) (hm : mlook a.href menu = none)
    (hinv : menuInv menu prev) :
    menuInv (menu ++ [(a.href, [a.label])]) (prev ++ [a]) := by
  intro h
  rw [mlook_append]
  cases hm2 : mlook h menu with
  | none =>
    by_cases hh : a.href = h
    · have hb : (a.href == h) = true := by simpa using hh
      simp only [hb, if_pos]
      intro l
      constructor
      · intro hl
        have hla : l = a.label := by simpa using hl
        exact ⟨a, by simp, hh, hla.symm⟩
      · rintro ⟨b, hb2, h1, h2⟩
        rcases List.mem_append.mp hb2 with hb3 | hb3
        · have base := hinv h
          rw [hm2] at base
          exact absurd h1 (base b hb3)
        · have hba : b = a := by simpa using hb3
          subst hba
          simp [h2]
    · have hb : (a.href == h) = false := by simpa using hh
      simp only [hb, Bool.false_eq_true, if_false]
      intro b hb2
      rcases List.mem_append.mp hb2 with hb3 | hb3
      · have base := hinv h
        rw [hm2] at base
        exact base b hb3
      · have hba : b = a := by simpa using hb3
        subst hba
        exact hh
  | some ls =>
    have hne : a.href ≠ h := by
      intro he
      rw [he] at hm
      cases hm2.symm.trans hm
    have base := hinv h
    rw [hm2] at base
    intro l
    rw [base l]
    constructor
    · rintro ⟨b, hb2, h1, h2⟩
      exact ⟨b, List.mem_append_left _ hb2, h1, h2⟩
    · rintro ⟨b, hb2, h1, h2⟩
      rcases List.mem_append.mp hb2 with hb3 | hb3
      · exact ⟨b, hb3, h1, h2⟩
      · have hba : b = a := by simpa using hb3
        subst hba
        exact absurd h1 hne

/-- Scanning a repeated `(href, label)` pair leaves the dictionary unchanged
and keeps it consistent. -/
theorem menuInv_extend_dup (menu : List (String × List String))
    (prev : List AnchorRec) (a : AnchorRec) (ls : List String)
    (hm : mlook a.href menu = some ls) (hdup : ls.contains a.label = true)
    (hinv : menuInv menu prev) : menuInv menu (prev ++ [a]) := by
  intro h
  cases hm2 : mlook h menu with
  | none =>
    have hne : a.href ≠ h := by
      intro he
      rw [he] at hm
      cases hm2.symm.trans hm
    have base := hinv h
    rw [hm2] at base
    intro b hb2
    rcases List.mem_append.mp hb2 with hb3 | hb3
    · exact base b hb3
    · have hba : b = a := by simpa using hb3
      subst hba
      exact hne
  | some ls2 =>
    have base := hinv h
    rw [hm2] at base
    intro l
    rw [base l]
    constructor
    · rintro ⟨b, hb2, h1, h2⟩
      exact ⟨b, List.mem_append_left _ hb2, h1, h2⟩
    · rintro ⟨b, hb2, h1, h2⟩
      rcases List.mem_append.mp hb2 with hb3 | hb3
      · exact ⟨b, hb3, h1, h2⟩
      · have hba : b = a := by simpa using hb3
        rw [hba] at h1 h2
        have hls : ls2 = ls := by
          rw [← h1] at hm2
          rw [hm2] at hm
          cases hm
          rfl
        rw [← h2]
        exact (base a.label).mp (by rw [hls]; exact hdup)

/-- Scanning a known href with a novel label appends the label in place and
keeps the dictionary consistent. -/
theorem menuInv_extend_novel (menu : List (String × List String))
    (prev : List AnchorRec) (a : AnchorRec) (ls : List String)
    (hm : mlook a.href menu = some ls) (hinv : menuInv menu prev) :
    menuInv (mupdate a.href (ls ++ [a.label]) menu) (prev ++ [a]) := by
  intro h
  rw [mlook_mupdate]
  by_cases he : a.href = h
  · rw [if_pos he, ← he, hm]
    show ∀ l : String, (ls ++ [a.label]).contains l = true ↔
      ∃ b ∈ prev ++ [a], b.href = a.href ∧ b.label = l
    intro l
    have base := hinv h
    rw [← he] at base
    rw [hm] at base
    constructor
    · intro hl
      have hcase : l ∈ ls ∨ l = a.label := by simpa using hl
      rcases hcase with h3 | h3
      · obtain ⟨b, hb2, h1, h2⟩ := (base l).mp (by simpa using h3)
        exact ⟨b, List.mem_append_left _ hb2, h1, h2⟩
      · exact ⟨a, by simp, rfl, h3.symm⟩
    · rintro ⟨b, hb2, h1, h2⟩
      rcases List.mem_append.mp hb2 with hb3 | hb3
      · have hc : ls.contains l = true := (base l).mpr ⟨b, hb3, h1, h2⟩
        have hmem : l ∈ ls := by simpa using hc
        simp [hmem]
      · have hba : b = a := by simpa using hb3
        subst hba
        simp [h2]
  · rw [if_neg he]
    cases hm2 : mlook h menu with
    | none =>
      have base := hinv h
      rw [hm2] at base
      intro b hb2
      rcases List.mem_append.mp hb2 with hb3 | hb3
      · exact base b hb3
      · have hba : b = a := by simpa using hb3
        subst hba
        exact he
    | some ls2 =>
      have base := hinv h
      rw [hm2] at base
      intro l
      rw [base l]
      constructor
      · rintro ⟨b, hb2, h1, h2⟩
        exact ⟨b, List.mem_append_left _ hb2, h1, h2⟩
      · rintro ⟨b, hb2, h1, h2⟩
        rcases List.mem_append.mp hb2 with hb3 | hb3
        · exact ⟨b, hb3, h1, h2⟩
        · have hba : b = a := by simpa using hb3
          subst hba
          exact absurd h1 he

/-- The dedup fold produces exactly the claim-side marks, given a dictionary
consistent with the anchors already scanned. -/
theorem dedup_fold_marks (as : List AnchorRec) :
    ∀ (menu : List (String × List String)) (marks : List (List Nat))
      (prev : List AnchorRec), menuInv menu prev →
      (as.foldl dedupStep (menu, marks)).2 =
        marks ++ (flagDup prev as).filterMap
          (fun p => if p.2 && jsUpper p.1.parentTag == "LI" then
            some p.1.path.dropLast else none) := by
  induction as with
  | nil =>
    intro menu marks prev hinv
    simp [flagDup]
  | cons a rest ih =>
    intro menu marks prev hinv
    simp only [List.foldl_cons, flagDup, List.filterMap_cons]
    have hinvh := hinv a.href
    cases hm : mlook a.href menu with
    | none =>
      rw [hm] at hinvh
      have hflag : prev.any (fun b => sameKey a b) = false := by
        rw [Bool.eq_false_iff]
        intro hc
        obtain ⟨b, hb, h1, h2⟩ := (sameKey_any prev a).mp hc
        exact hinvh b hb h1
      have hstep : dedupStep (menu, marks) a =
          (menu ++ [(a.href, [a.label])], marks) := by
        simp [dedupStep, hm]
      rw [hstep, hflag]
      simp only [Bool.false_and, Bool.false_eq_true, if_false]
      exact ih (menu ++ [(a.href, [a.label])]) marks (prev ++ [a])
        (menuInv_extend_fresh menu prev a hm hinv)
    | some ls =>
      rw [hm] at hinvh
      by_cases hdup : ls.contains a.label = true
      · have hflag : prev.any (fun b => sameKey a b) = true := by
          rw [sameKey_any]
          exact (hinvh a.label).mp hdup
        rw [hflag]
        have hmem : a.label ∈ ls := by simpa using hdup
        by_cases hli : (jsUpper a.parentTag == "LI") = true
        · have hstep : dedupStep (menu, marks) a =
              (menu, marks ++ [a.path.dropLast]) := by
            simp [dedupStep, hm, hdup, hli, hmem]
          rw [hstep]
          rw [ih menu (marks ++ [a.path.dropLast]) (prev ++ [a])
            (menuInv_extend_dup menu prev a ls hm hdup hinv)]
          simp [hli, List.append_assoc]
        · have hstep : dedupStep (menu, marks) a = (menu, marks) := by
            simp [dedupStep, hm, hdup, hli, hmem]
          rw [hstep]
          rw [ih menu marks (prev ++ [a])
            (menuInv_extend_dup menu prev a ls hm hdup hinv)]
          simp [hli]
      · have hdup2 : ls.contains a.label = false := by
          cases h2 : ls.contains a.label
          · rfl
          · exact absurd h2 hdup
        have hflag : prev.any (fun b => sameKey a b) = false := by
          rw [Bool.eq_false_iff]
          intro hc
          obtain ⟨b, hb, h1, h2⟩ := (sameKey_any prev a).mp hc
          exact hdup ((hinvh a.label).mpr ⟨b, hb, h1, h2⟩)
        have hmem : a.label ∉ ls := by
          intro hc
          exact hdup (by simpa using hc)
        have hstep : dedupStep (menu, marks) a =
            (mupdate a.href (ls ++ [a.label]) menu, marks) := by
          simp [dedupStep, hm, hdup2, hmem]
        rw [hstep, hflag]
        simp only [Bool.false_and, Bool.false_eq_true, if_false]
        exact ih (mupdate a.href (ls ++ [a.label]) menu) marks (prev ++ [a])
          (menuInv_extend_novel menu prev a ls hm hinv)

/-- The two-phase dedup scan marks exactly the parent `LI`s of the anchors
repeating an earlier `(href, lower-cased label)` key. -/
theorem dedupMarks_eq_spec (as : List AnchorRec) : dedupMarks as = marksSpec as := by
  unfold dedupMarks marksSpec
  rw [dedup_fold_marks as [] [] [] menuInv_nil]
  simp

mutual

/-- A subtree with no marks strictly inside it is left untouched by the
removal pass. -/
theorem strip_id_node (t : DomNode) :
    ∀ (marks : List (List Nat)) (pref : List Nat),
      (∀ q ∈ marks, ∀ tail, q = pref ++ tail → tail = ([] : List Nat)) →
      stripMarked marks pref t = t := by
  match t with
  | .text s => intro marks pref h; rfl
  | .elem tag vis attrs cs =>
    intro marks pref h
    simp only [stripMarked]
    rw [strip_id_list cs marks pref 0 h]

/-- A child list with no marks strictly inside it is left untouched. -/
theorem strip_id_list (cs : List DomNode) :
    ∀ (marks : List (List Nat)) (pref : List Nat) (i : Nat),
      (∀ q ∈ marks, ∀ tail, q = pref ++ tail → tail = ([] : List Nat)) →
      stripList marks pref i cs = cs := by
  match cs with
  | [] => intro marks pref i h; rfl
  | c :: rest =>
    intro marks pref i h
    simp only [stripList]
    have hnm : (pref ++ [i]) ∉ marks := by
      intro hmem
      cases h _ hmem [i] rfl
    have hcont : marks.contains (pref ++ [i]) = false := by
      simpa using hnm
    rw [hcont]
    have hsub : ∀ q ∈ marks, ∀ tail, q = (pref ++ [i]) ++ tail → tail = ([] : List Nat) := by
      intro q hq tail he
      rw [List.append_assoc] at he
      cases h _ hq ([i] ++ tail) he
    rw [strip_id_node c marks (pref ++ [i]) hsub, strip_id_list rest marks pref (i + 1) h]
    simp

end

mutual

/-- A subtree containing no anchor contributes nothing to the scan. -/
theorem scan_empty_node (c : DomNode) :
    ∀ (pt : String) (path : List Nat), anchorInNode c = false →
      scanSelf pt path c = [] := by
  match c with
  | .text s => intro pt path h; rfl
  | .elem tag vis attrs cs =>
    intro pt path h
    simp only [anchorInNode, Bool.or_eq_false_iff] at h
    simp only [scanSelf, h.1, Bool.false_eq_true, if_false, List.nil_append]
    exact scan_empty_list cs tag path 0 h.2

/-- A child list containing no anchor contributes nothing to the scan. -/
theorem scan_empty_list (cs : List DomNode) :
    ∀ (pt : String) (base : List Nat) (i : Nat), anchorInList cs = false →
      scanList pt base i cs = [] := by
  match cs with
  | [] => intro pt base i h; rfl
  | c :: rest =>
    intro pt base i h
    simp only [anchorInList, Bool.or_eq_false_iff] at h
    simp only [scanList]
    rw [scan_empty_node c pt (base ++ [i]) h.1, scan_empty_list rest pt base (i + 1) h.2]
    rfl

end

mutual

/-- A subtree containing no anchor contributes nothing to the path-free
scan either. -/
theorem tscan_empty_node (c : DomNode) :
    ∀ pt : String, anchorInNode c = false → tscanSelf pt c = [] := by
  match c with
  | .text s => intro pt h; rfl
  | .elem tag vis attrs cs =>
    intro pt h
    simp only [anchorInNode, Bool.or_eq_false_iff] at h
    simp only [tscanSelf, h.1, Bool.false_eq_true, if_false, List.nil_append]
    exact tscan_empty_list cs tag h.2

/-- A child list containing no anchor contributes nothing to the path-free
scan. -/
theorem tscan_empty_list (cs : List DomNode) :
    ∀ pt : String, anchorInList cs = false → tscanList pt cs = [] := by
  match cs with
  | [] => intro pt h; rfl
  | c :: rest =>
    intro pt h
    simp only [anchorInList, Bool.or_eq_false_iff] at h
    simp only [tscanList]
    rw [tscan_empty_node c pt h.1, tscan_empty_list rest pt h.2]
    rfl

end

mutual

/-- The path-free scan is the path-ful scan with the paths dropped. -/
theorem scan_triples_node (c : DomNode) :
    ∀ (pt : String) (path : List Nat),
      (scanSelf pt path c).map tripleOf = tscanSelf pt c := by
  match c with
  | .text s => intro pt path; rfl
  | .elem tag vis attrs cs =>
    intro pt path
    simp only [scanSelf, tscanSelf]
    by_cases hA : (jsUpper tag == "A") = true
    · simp only [hA, if_pos, List.map_append]
      rw [scan_triples_list cs tag path 0]
      rfl
    · simp only [hA, Bool.false_eq_true, if_neg, List.nil_append]
      exact scan_triples_list cs tag path 0

/-- List version of `scan_triples_node`. -/
theorem scan_triples_list (cs : List DomNode) :
    ∀ (pt : String) (base : List Nat) (i : Nat),
      (scanList pt base i cs).map tripleOf = tscanList pt cs := by
  match cs with
  | [] => intro pt base i; rfl
  | c :: rest =>
    intro pt base i
    simp only [scanList, tscanList, List.map_append]
    rw [scan_triples_node c pt (base ++ [i]), scan_triples_list rest pt base (i + 1)]

end

/-- Every leaf `LI` path of an item list rooted at `base` either is a
direct item path `base ++ [j]` or lies under some group's submenu
`base ++ [j, 1]`, with `j` at least the starting index. -/
theorem leafLIPaths_shape (items : List DomNode) :
    ∀ (base : List Nat) (i : Nat) (q : List Nat), q ∈ leafLIPaths base i items →
      ∃ j, i ≤ j ∧ (q = base ++ [j] ∨ (base ++ [j, 1]) <+: q) := by
  match items with
  | [] => intro base i q hq; cases hq
  | it :: rest =>
    intro base i q hq
    simp only [leafLIPaths] at hq
    rcases List.mem_append.mp hq with hh | hr
    · rw [leafLIPathsItem.eq_def] at hh
      split at hh
      · have hqe : q = base ++ [i] := by simpa using hh
        exact ⟨i, Nat.le_refl i, Or.inl hqe⟩
      · rename_i sub
        obtain ⟨j2, hj2, hc⟩ := leafLIPaths_shape sub (base ++ [i, 1]) 0 q hh
        refine ⟨i, Nat.le_refl i, Or.inr ?_⟩
        rcases hc with hc | hc
        · rw [hc]
          exact List.prefix_append _ _
        · exact List.IsPrefix.trans (List.prefix_append _ _) hc
      · cases hh
    · obtain ⟨j, hj, hc⟩ := leafLIPaths_shape rest base (i + 1) q hr
      exact ⟨j, Nat.le_of_succ_le hj, hc⟩

/-- Scanning a leaf item yields exactly one record: the clone anchor, with
the `LI` as its parent and path component `0`. -/
theorem scanSelf_leafItem (pt : String) (p : List Nat) (v : Bool)
    (at2 : List (String × String)) (a : DomNode) (hA : isCleanAnchor a = true) :
    scanSelf pt p (.elem "LI" v at2 [a]) =
      [⟨p ++ [0], hrefOf a, labelOf a, "LI"⟩] := by
  cases a with
  | text s =>
    rw [show isCleanAnchor (DomNode.text s) = false from rfl] at hA
    cases hA
  | elem tagA visA attrsA csA =>
    have hA2 : (jsUpper tagA == "A") = true ∧ anchorInList csA = false := by
      have := hA
      simp only [isCleanAnchor, nodeName, childrenOf, Bool.and_eq_true,
        Bool.not_eq_eq_eq_not, Bool.not_true] at this
      exact this
    obtain ⟨h1, h2⟩ := hA2
    have hLI : (jsUpper "LI" == "A") = false := by decide
    simp only [scanSelf, scanList, hLI, Bool.false_eq_true, if_false,
      List.nil_append, List.append_nil, h1, if_pos]
    rw [scan_empty_list csA tagA (p ++ [0]) 0 h2]
    simp [hrefOf, labelOf, getAttr, childrenOf]

/-- Path-free version of `scanSelf_leafItem`. -/
theorem tscanSelf_leafItem (pt : String) (v : Bool)
    (at2 : List (String × String)) (a : DomNode) (hA : isCleanAnchor a = true) :
    tscanSelf pt (.elem "LI" v at2 [a]) = [(hrefOf a, labelOf a, "LI")] := by
  cases a with
  | text s =>
    rw [show isCleanAnchor (DomNode.text s) = false from rfl] at hA
    cases hA
  | elem tagA visA attrsA csA =>
    have hA2 : (jsUpper tagA == "A") = true ∧ anchorInList csA = false := by
      have := hA
      simp only [isCleanAnchor, nodeName, childrenOf, Bool.and_eq_true,
        Bool.not_eq_eq_eq_not, Bool.not_true] at this
      exact this
    obtain ⟨h1, h2⟩ := hA2
    have hLI : (jsUpper "LI" == "A") = false := by decide
    simp only [tscanSelf, tscanList, hLI, Bool.false_eq_true, if_false,
      List.nil_append, List.append_nil, h1, if_pos]
    rw [tscan_empty_list csA tagA h2]
    simp [hrefOf, labelOf, getAttr, childrenOf]

/-- Scanning a group item yields the `DIV`-parented title record followed by
the scan of its submenu. -/
theorem scanSelf_groupItem (pt : String) (p : List Nat) (v vd va vu : Bool)
    (at2 ad aa au : List (String × String)) (s : String) (sub : List DomNode) :
    scanSelf pt p
      (.elem "LI" v at2 [.elem "DIV" vd ad [.elem "A" va aa [.text s]],
        .elem "UL" vu au sub]) =
      ⟨p ++ [0, 0], ((aa.find? (fun pr => pr.1 == "href")).map Prod.snd).getD "",
        jsLower (innerHTMLList [DomNode.text s]), "DIV"⟩ ::
        scanList "UL" (p ++ [1]) 0 sub := by
  have hLI : (jsUpper "LI" == "A") = false := by decide
  have hDIV : (jsUpper "DIV" == "A") = false := by decide
  have hUL : (jsUpper "UL" == "A") = false := by decide
  have hAA : (jsUpper "A" == "A") = true := by decide
  simp only [scanSelf, scanList, hLI, hDIV, hUL, hAA, Bool.false_eq_true,
    if_false, if_pos, List.nil_append, List.append_nil]
  simp [List.append_assoc]

/-- Path-free version of `scanSelf_groupItem`. -/
theorem tscanSelf_groupItem (pt : String) (v vd va vu : Bool)
    (at2 ad aa au : List (String × String)) (s : String) (sub : List DomNode) :
    tscanSelf pt
      (.elem "LI" v at2 [.elem "DIV" vd ad [.elem "A" va aa [.text s]],
        .elem "UL" vu au sub]) =
      (((aa.find? (fun pr => pr.1 == "href")).map Prod.snd).getD "",
        jsLower (innerHTMLList [DomNode.text s]), "DIV") :: tscanList "UL" sub := by
  have hLI : (jsUpper "LI" == "A") = false := by decide
  have hDIV : (jsUpper "DIV" == "A") = false := by decide
  have hUL : (jsUpper "UL" == "A") = false := by decide
  have hAA : (jsUpper "A" == "A") = true := by decide
  simp only [tscanSelf, tscanList, hLI, hDIV, hUL, hAA, Bool.false_eq_true,
    if_false, if_pos, List.nil_append, List.append_nil]
  rfl

mutual

/-- Every record scanned from a subtree has the subtree's path as a prefix
of its own. -/
theorem scanSelf_path_prefix (c : DomNode) :
    ∀ (pt : String) (path : List Nat) (a : AnchorRec), a ∈ scanSelf pt path c →
      path <+: a.path := by
  match c with
  | .text s => intro pt path a ha; cases ha
  | .elem tag vis attrs cs =>
    intro pt path a ha
    simp only [scanSelf] at ha
    rcases List.mem_append.mp ha with hh | hd
    · by_cases hA : (jsUpper tag == "A") = true
      · rw [if_pos hA] at hh
        have e0 := List.mem_singleton.mp hh
        rw [e0]
      · rw [if_neg hA] at hh
        cases hh
    · obtain ⟨j, hj, hpre⟩ := scanList_path_prefix cs tag path 0 a hd
      exact List.IsPrefix.trans (List.prefix_append path [j]) hpre

/-- Every record scanned from a child list extends `base ++ [j]` for some
child index `j` at or after the starting index. -/
theorem scanList_path_prefix (cs : List DomNode) :
    ∀ (pt : String) (base : List Nat) (i : Nat) (a : AnchorRec),
      a ∈ scanList pt base i cs → ∃ j, i ≤ j ∧ (base ++ [j]) <+: a.path := by
  match cs with
  | [] => intro pt base i a ha; cases ha
  | c :: rest =>
    intro pt base i a ha
    simp only [scanList] at ha
    rcases List.mem_append.mp ha with hh | ht
    · exact ⟨i, Nat.le_refl i, scanSelf_path_prefix c pt (base ++ [i]) a hh⟩
    · obtain ⟨j, hj, hpre⟩ := scanList_path_prefix rest pt base (i + 1) a ht
      exact ⟨j, Nat.le_of_succ_le hj, hpre⟩

end

mutual

/-- Within one subtree scan, records are determined by their paths. -/
theorem scanSelf_path_inj (c : DomNode) :
    ∀ (pt : String) (path : List Nat) (a b : AnchorRec), a ∈ scanSelf pt path c →
      b ∈ scanSelf pt path c → a.path = b.path → a = b := by
  match c with
  | .text s => intro pt path a b ha hb he; cases ha
  | .elem tag vis attrs cs =>
    intro pt path a b ha hb he
    simp only [scanSelf] at ha hb
    rcases List.mem_append.mp ha with hh1 | hd1 <;>
      rcases List.mem_append.mp hb with hh2 | hd2
    · by_cases hA : (jsUpper tag == "A") = true
      · rw [if_pos hA] at hh1 hh2
        have e1 := List.mem_singleton.mp hh1
        have e2 := List.mem_singleton.mp hh2
        rw [e1, e2]
      · rw [if_neg hA] at hh1
        cases hh1
    · by_cases hA : (jsUpper tag == "A") = true
      · rw [if_pos hA] at hh1
        have e0 := List.mem_singleton.mp hh1
        have e1 : a.path = path := by rw [e0]
        obtain ⟨j, hj, hpre⟩ := scanList_path_prefix cs tag path 0 b hd2
        have hlen : path.length + 1 ≤ b.path.length := by
          have := hpre.length_le
          simp at this
          omega
        rw [he] at e1
        rw [e1] at hlen
        omega
      · rw [if_neg hA] at hh1
        cases hh1
    · by_cases hA : (jsUpper tag == "A") = true
      · rw [if_pos hA] at hh2
        have e0 := List.mem_singleton.mp hh2
        have e2 : b.path = path := by rw [e0]
        obtain ⟨j, hj, hpre⟩ := scanList_path_prefix cs tag path 0 a hd1
        have hlen : path.length + 1 ≤ a.path.length := by
          have := hpre.length_le
          simp at this
          omega
        rw [← he] at e2
        rw [e2] at hlen
        omega
      · rw [if_neg hA] at hh2
        cases hh2
    · exact scanList_path_inj cs tag path 0 a b hd1 hd2 he

/-- Within one child-list scan, records are determined by their paths. -/
theorem scanList_path_inj (cs : List DomNode) :
    ∀ (pt : String) (base : List Nat) (i : Nat) (a b : AnchorRec),
      a ∈ scanList pt base i cs → b ∈ scanList pt base i cs → a.path = b.path →
      a = b := by
  match cs with
  | [] => intro pt base i a b ha hb he; cases ha
  | c :: rest =>
    intro pt base i a b ha hb he
    simp only [scanList] at ha hb
    have hcross : ∀ (x y : AnchorRec), x ∈ scanSelf pt (base ++ [i]) c →
        y ∈ scanList pt base (i + 1) rest → x.path ≠ y.path := by
      intro x y hx hy hexy
      have hpx : (base ++ [i]) <+: x.path := scanSelf_path_prefix c pt (base ++ [i]) x hx
      obtain ⟨j, hj, hpy⟩ := scanList_path_prefix rest pt base (i + 1) y hy
      rw [hexy] at hpx
      have hor := List.prefix_or_prefix_of_prefix hpx hpy
      have heq : base ++ [i] = base ++ [j] := by
        rcases hor with hor | hor
        · exact hor.eq_of_length (by simp)
        · exact (hor.eq_of_length (by simp)).symm
      have : i = j := by simpa using heq
      omega
    rcases List.mem_append.mp ha with hh1 | ht1 <;>
      rcases List.mem_append.mp hb with hh2 | ht2
    · exact scanSelf_path_inj c pt (base ++ [i]) a b hh1 hh2 he
    · exact absurd he (hcross a b hh1 ht2)
    · exact absurd he.symm (hcross b a hh2 ht1)
    · exact scanList_path_inj rest pt base (i + 1) a b ht1 ht2 he

end

/-- Leaf `LI` paths strictly extend the base path. -/
theorem leafLIPaths_extends (items : List DomNode) (base : List Nat) (i : Nat)
    (q : List Nat) (hq : q ∈ leafLIPaths base i items) :
    base <+: q ∧ base.length + 1 ≤ q.length := by
  obtain ⟨j, hj, hc⟩ := leafLIPaths_shape items base i q hq
  rcases hc with hc | hc
  · constructor
    · rw [hc]
      exact List.prefix_append base [j]
    · rw [hc]
      simp
  · constructor
    · exact List.IsPrefix.trans (List.prefix_append base [j, 1]) hc
    · have := hc.length_le
      simp at this
      omega

/-- Leaf `LI` paths have odd length relative to the base of the item list
(one index per list level, plus pairs for nested submenu hops). -/
theorem leafLIPaths_parity (items : List DomNode) :
    ∀ (base : List Nat) (i : Nat) (q : List Nat), q ∈ leafLIPaths base i items →
      (q.length - base.length) % 2 = 1 := by
  match items with
  | [] => intro base i q hq; cases hq
  | it :: rest =>
    intro base i q hq
    simp only [leafLIPaths] at hq
    rcases List.mem_append.mp hq with hh | hr
    · rw [leafLIPathsItem.eq_def] at hh
      split at hh
      · have hqe : q = base ++ [i] := by simpa using hh
        rw [hqe]
        simp
      · rename_i sub
        have hpar := leafLIPaths_parity sub (base ++ [i, 1]) 0 q hh
        have hlen := (leafLIPaths_extends sub (base ++ [i, 1]) 0 q hh).2
        simp only [List.length_append] at hpar hlen ⊢
        have h2 : ([i, 1] : List Nat).length = 2 := rfl
        rw [h2] at hpar hlen
        omega
      · cases hh
    · exact leafLIPaths_parity rest base (i + 1) q hr

/-- A single-child `LI` contributes its own path as a leaf path. -/
theorem leafLIPathsItem_leaf (base : List Nat) (i : Nat) (v : Bool)
    (at2 : List (String × String)) (a : DomNode) :
    leafLIPathsItem base i (.elem "LI" v at2 [a]) = [base ++ [i]] := by
  rw [leafLIPathsItem.eq_def]
  split
  · rfl
  · rename_i heq
    simp at heq
  · rename_i h1 h2
    exact (h1 v at2 a rfl).elim

/-- A group `LI` contributes the leaf paths of its submenu. -/
theorem leafLIPathsItem_group (base : List Nat) (i : Nat) (v vd va vu : Bool)
    (at2 ad aa au : List (String × String)) (s : String) (sub : List DomNode) :
    leafLIPathsItem base i
      (.elem "LI" v at2 [.elem "DIV" vd ad [.elem "A" va aa [.text s]],
        .elem "UL" vu au sub]) = leafLIPaths (base ++ [i, 1]) 0 sub := rfl

/-- Every record scanned from a well-shaped item list is either a leaf-clone
anchor — `LI`-parented, sitting at index 0 of a leaf `LI` — or a
`DIV`-parented submenu title; the two kinds are separated by the parity of
their path length relative to the item list base. -/
theorem scan_good_parent (items : List DomNode) :
    ∀ (base : List Nat) (i : Nat), goodItems items = true →
      ∀ a ∈ scanList "UL" base i items,
        (a.parentTag = "LI" ∧ a.path = a.path.dropLast ++ [0] ∧
          a.path.dropLast ∈ leafLIPaths base i items ∧
          base.length + 2 ≤ a.path.length ∧ (a.path.length - base.length) % 2 = 0)
      ∨ (a.parentTag = "DIV" ∧
          base.length + 3 ≤ a.path.length ∧ (a.path.length - base.length) % 2 = 1) := by
  match items with
  | [] => intro base i hg a ha; cases ha
  | it :: rest =>
    intro base i hg a ha
    have hg2 : goodItem it = true ∧ goodItems rest = true := by
      simpa [goodItems] using hg
    obtain ⟨hgi, hgr⟩ := hg2
    simp only [scanList] at ha
    rcases List.mem_append.mp ha with hh | ht
    · rw [goodItem.eq_def] at hgi
      split at hgi
      · rename_i v at2 a0
        rw [scanSelf_leafItem "UL" (base ++ [i]) v at2 a0 hgi] at hh
        have e0 := List.mem_singleton.mp hh
        subst e0
        left
        refine ⟨rfl, ?_, ?_, ?_, ?_⟩
        · simp
        · simp only [leafLIPaths]
          refine List.mem_append_left _ ?_
          rw [leafLIPathsItem_leaf]
          simp
        · simp
        · simp
      · rename_i v at2 vd ad va aa s vu au sub
        rw [scanSelf_groupItem] at hh
        rcases List.mem_cons.mp hh with e0 | hsub
        · subst e0
          right
          refine ⟨rfl, ?_, ?_⟩
          · simp only [List.length_append, List.length_cons, List.length_nil]
            omega
          · simp only [List.length_append, List.length_cons, List.length_nil]
            omega
        · have hbase : (base ++ [i]) ++ [1] = base ++ [i, 1] := by simp
          have hrec := scan_good_parent sub ((base ++ [i]) ++ [1]) 0 hgi a hsub
          rcases hrec with ⟨h1, h2, h3, h4, h5⟩ | ⟨h1, h2, h3⟩
          · left
            refine ⟨h1, h2, ?_, ?_, ?_⟩
            · simp only [leafLIPaths]
              refine List.mem_append_left _ ?_
              rw [leafLIPathsItem_group]
              rw [hbase] at h3
              exact h3
            · simp only [List.length_append, List.length_cons, List.length_nil] at h4 ⊢
              omega
            · simp only [List.length_append, List.length_cons, List.length_nil] at h4 h5 ⊢
              omega
          · right
            refine ⟨h1, ?_, ?_⟩
            · simp only [List.length_append, List.length_cons, List.length_nil] at h2 ⊢
              omega
            · simp only [List.length_append, List.length_cons, List.length_nil] at h2 h3 ⊢
              omega
      · cases hgi
    · have hrec := scan_good_parent rest base (i + 1) hgr a ht
      rcases hrec with ⟨h1, h2, h3, h4, h5⟩ | ⟨h1, h2, h3⟩
      · left
        refine ⟨h1, h2, ?_, h4, h5⟩
        simp only [leafLIPaths]
        exact List.mem_append_right _ h3
      · exact Or.inr ⟨h1, h2, h3⟩

/-- A leaf path of `it :: rest` comes from the head item or from the rest,
the latter with a head index of at least `i + 1`. -/
theorem LP_cons_elim (it : DomNode) (rest : List DomNode) (base : List Nat)
    (i : Nat) (q : List Nat) (hq : q ∈ leafLIPaths base i (it :: rest)) :
    q ∈ leafLIPathsItem base i it ∨
      ∃ j, i + 1 ≤ j ∧ (q = base ++ [j] ∨ (base ++ [j, 1]) <+: q) := by
  simp only [leafLIPaths] at hq
  rcases List.mem_append.mp hq with hh | hr
  · exact Or.inl hh
  · exact Or.inr (leafLIPaths_shape rest base (i + 1) q hr)

/-- A mark reaching into the head item (path component `i`) must be one of
the head item's own leaf paths. -/
theorem mark_in_item (it : DomNode) (rest : List DomNode) (base : List Nat)
    (i : Nat) (M : List (List Nat))
    (hM : ∀ p ∈ M, ∀ (j : Nat) (tail : List Nat), p = base ++ j :: tail → i ≤ j →
      p ∈ leafLIPaths base i (it :: rest))
    (tail : List Nat) (hmem : (base ++ i :: tail) ∈ M) :
    (base ++ i :: tail) ∈ leafLIPathsItem base i it := by
  have h0 := hM _ hmem i tail rfl (Nat.le_refl i)
  rcases LP_cons_elim it rest base i _ h0 with hh | ⟨j, hj, hc | hc⟩
  · exact hh
  · have : i :: tail = [j] := by simpa using hc
    have : i = j := by
      cases this
      rfl
    omega
  · rw [List.prefix_append_right_inj] at hc
    rw [List.cons_prefix_cons] at hc
    omega

/-- Marks never point at or into the head of a leaf item beyond the leaf
`LI` itself: the only possible mark with head component `i` is `base ++ [i]`. -/
theorem mark_leaf_only (v : Bool) (at2 : List (String × String)) (a0 : DomNode)
    (rest : List DomNode) (base : List Nat) (i : Nat) (M : List (List Nat))
    (hM : ∀ p ∈ M, ∀ (j : Nat) (tail : List Nat), p = base ++ j :: tail → i ≤ j →
      p ∈ leafLIPaths base i (.elem "LI" v at2 [a0] :: rest))
    (tail : List Nat) (hmem : (base ++ i :: tail) ∈ M) : tail = [] := by
  have h0 := mark_in_item _ rest base i M hM tail hmem
  rw [leafLIPathsItem_leaf] at h0
  have : base ++ i :: tail = base ++ [i] := by simpa using h0
  have h2 : i :: tail = [i] := by simpa using this
  cases h2
  rfl

/-- Marks reaching into a group item head land inside its submenu: the tail
after component `i` starts with `1` and the mark is one of the submenu's
leaf paths. -/
theorem mark_group_sub (v vd va vu : Bool) (at2 ad aa au : List (String × String))
    (s : String) (sub : List DomNode) (rest : List DomNode) (base : List Nat)
    (i : Nat) (M : List (List Nat))
    (hM : ∀ p ∈ M, ∀ (j : Nat) (tail : List Nat), p = base ++ j :: tail → i ≤ j →
      p ∈ leafLIPaths base i
        (.elem "LI" v at2 [.elem "DIV" vd ad [.elem "A" va aa [.text s]],
          .elem "UL" vu au sub] :: rest))
    (tail : List Nat) (hmem : (base ++ i :: tail) ∈ M) :
    ∃ tail2, tail = 1 :: tail2 ∧
      (base ++ i :: tail) ∈ leafLIPaths (base ++ [i, 1]) 0 sub := by
  have h0 := mark_in_item _ rest base i M hM tail hmem
  rw [leafLIPathsItem_group] at h0
  have hext := (leafLIPaths_extends sub (base ++ [i, 1]) 0 _ h0).1
  have : (base ++ [i, 1]) <+: base ++ i :: tail := hext
  rw [List.prefix_append_right_inj] at this
  rw [List.cons_prefix_cons] at this
  obtain ⟨tail2, htail⟩ := this.2
  refine ⟨tail2, ?_, h0⟩
  rw [← htail]
  rfl

/-- The path-free scan distributes over list concatenation. -/
theorem tscanList_append (pt : String) (xs ys : List DomNode) :
    tscanList pt (xs ++ ys) = tscanList pt xs ++ tscanList pt ys := by
  induction xs with
  | nil => rfl
  | cons c rest ih =>
    simp only [List.cons_append, tscanList, List.append_eq, ih, List.append_assoc]

/-- Every leaf path contributed by the item at index `i` has `i` as its
first path component after the base. -/
theorem LPItem_head_comp (it : DomNode) (base : List Nat) (i : Nat)
    (q : List Nat) (hq : q ∈ leafLIPathsItem base i it) :
    ∃ tail, q = base ++ i :: tail := by
  rw [leafLIPathsItem.eq_def] at hq
  split at hq
  · refine ⟨[], by simpa using hq⟩
  · rename_i sub
    have hext := (leafLIPaths_extends sub (base ++ [i, 1]) 0 q hq).1
    obtain ⟨t, ht⟩ := hext
    refine ⟨1 :: t, ?_⟩
    rw [← ht]
    simp
  · cases hq

/-- The mark hypothesis of the bridge survives dropping the head item. -/
theorem hM_step (it : DomNode) (rest : List DomNode) (base : List Nat) (i : Nat)
    (M : List (List Nat))
    (hM : ∀ p ∈ M, ∀ (j : Nat) (tail : List Nat), p = base ++ j :: tail → i ≤ j →
      p ∈ leafLIPaths base i (it :: rest)) :
    ∀ p ∈ M, ∀ (j : Nat) (tail : List Nat), p = base ++ j :: tail → i + 1 ≤ j →
      p ∈ leafLIPaths base (i + 1) rest := by
  intro p hp j tail he hj
  have h0 := hM p hp j tail he (by omega)
  simp only [leafLIPaths] at h0
  rcases List.mem_append.mp h0 with hh | hr
  · obtain ⟨tail2, ht2⟩ := LPItem_head_comp it base i p hh
    rw [he] at ht2
    have : j :: tail = i :: tail2 := by simpa using ht2
    have hji : j = i := (List.cons.injEq .. ▸ this).1
    omega
  · exact hr

/-- The bridge between the two dedup phases on well-shaped panels: removing
the marked nodes and rescanning yields, in order, exactly the original
records whose parent `LI` path is unmarked (paths dropped, since removal
shifts sibling indices), provided every relevant mark is a leaf `LI` path. -/
theorem strip_scan_bridge (items : List DomNode) :
    ∀ (base : List Nat) (i : Nat) (M : List (List Nat)),
      goodItems items = true →
      (∀ p ∈ M, ∀ (j : Nat) (tail : List Nat), p = base ++ j :: tail → i ≤ j →
        p ∈ leafLIPaths base i items) →
      tscanList "UL" (stripList M base i items) =
        ((scanList "UL" base i items).filter
          (fun a => !(M.contains a.path.dropLast))).map tripleOf := by
  match items with
  | [] => intro base i M hg hM; rfl
  | it :: rest =>
    intro base i M hg hM
    have hg2 : goodItem it = true ∧ goodItems rest = true := by
      simpa [goodItems] using hg
    obtain ⟨hgi, hgr⟩ := hg2
    have hrest := strip_scan_bridge rest base (i + 1) M hgr (hM_step it rest base i M hM)
    simp only [stripList, scanList]
    rw [goodItem.eq_def] at hgi
    split at hgi
    · rename_i v at2 a0
      rw [scanSelf_leafItem "UL" (base ++ [i]) v at2 a0 hgi]
      have hdl : (((base ++ [i]) ++ [0] : List Nat)).dropLast = base ++ [i] := by simp
      by_cases hc : M.contains (base ++ [i]) = true
      · rw [if_pos hc]
        have hpred : (!(M.contains ((((base ++ [i]) ++ [0] : List Nat)).dropLast))) = false := by
          rw [hdl, hc]
          rfl
        simp only [List.nil_append, List.singleton_append, List.filter_cons, hpred,
          Bool.false_eq_true, if_false]
        exact hrest
      · have hc2 : M.contains (base ++ [i]) = false := by
          cases h : M.contains (base ++ [i])
          · rfl
          · exact absurd h hc
        rw [if_neg hc]
        have hkeep : stripMarked M (base ++ [i]) (.elem "LI" v at2 [a0]) =
            .elem "LI" v at2 [a0] := by
          apply strip_id_node
          intro q hq tail he
          have he2 : q = base ++ i :: tail := by rw [he]; simp
          exact mark_leaf_only v at2 a0 rest base i M hM tail (he2 ▸ hq)
        rw [hkeep]
        have hpred : (!(M.contains ((((base ++ [i]) ++ [0] : List Nat)).dropLast))) = true := by
          rw [hdl, hc2]
          rfl
        simp only [List.singleton_append, tscanList, List.filter_cons, hpred, if_pos,
          List.map_cons]
        rw [tscanSelf_leafItem "UL" v at2 a0 hgi]
        simp only [List.append_eq, List.nil_append]
        rw [hrest]
        simp [tripleOf]
    · rename_i v at2 vd ad va aa s vu au sub
      have hcg : M.contains (base ++ [i]) = false := by
        cases h : M.contains (base ++ [i])
        · rfl
        · exfalso
          have hmem : (base ++ i :: ([] : List Nat)) ∈ M := by simpa using h
          obtain ⟨t2, ht2, hmem2⟩ :=
            mark_group_sub v vd va vu at2 ad aa au s sub rest base i M hM [] hmem
          cases ht2
      have hcdiv : M.contains ((base ++ [i]) ++ [0]) = false := by
        cases h : M.contains ((base ++ [i]) ++ [0])
        · rfl
        · exfalso
          have hmem : (base ++ i :: [0]) ∈ M := by
            have he : (base ++ [i]) ++ [0] = base ++ i :: [0] := by simp
            rw [← he]
            simpa using h
          obtain ⟨t2, ht2, hmem2⟩ :=
            mark_group_sub v vd va vu at2 ad aa au s sub rest base i M hM [0] hmem
          cases ht2
      have hcul : M.contains ((base ++ [i]) ++ [1]) = false := by
        cases h : M.contains ((base ++ [i]) ++ [1])
        · rfl
        · exfalso
          have hmem : (base ++ i :: [1]) ∈ M := by
            have he : (base ++ [i]) ++ [1] = base ++ i :: [1] := by simp
            rw [← he]
            simpa using h
          obtain ⟨t2, ht2, hmem2⟩ :=
            mark_group_sub v vd va vu at2 ad aa au s sub rest base i M hM [1] hmem
          have hlen := (leafLIPaths_extends sub (base ++ [i, 1]) 0 _ hmem2).2
          simp only [List.length_append, List.length_cons, List.length_nil] at hlen
          omega
      rw [if_neg (by rw [hcg]; simp)]
      have hcdiv2 : M.contains (((base ++ [i]) ++ [0]) ++ [0]) = false := by
        cases h : M.contains (((base ++ [i]) ++ [0]) ++ [0])
        · rfl
        · exfalso
          have hmem : (base ++ i :: (0 :: [0])) ∈ M := by
            have he : ((base ++ [i]) ++ [0]) ++ [0] = base ++ i :: (0 :: [0]) := by simp
            rw [← he]
            simpa using h
          obtain ⟨t2, ht2, hmem2⟩ :=
            mark_group_sub v vd va vu at2 ad aa au s sub rest base i M hM (0 :: [0]) hmem
          cases ht2
      have hcdiv3 : M.contains ((((base ++ [i]) ++ [0]) ++ [0]) ++ [0]) = false := by
        cases h : M.contains ((((base ++ [i]) ++ [0]) ++ [0]) ++ [0])
        · rfl
        · exfalso
          have hmem : (base ++ i :: (0 :: [0, 0])) ∈ M := by
            have he : (((base ++ [i]) ++ [0]) ++ [0]) ++ [0] =
                base ++ i :: (0 :: [0, 0]) := by simp
            rw [← he]
            simpa using h
          obtain ⟨t2, ht2, hmem2⟩ :=
            mark_group_sub v vd va vu at2 ad aa au s sub rest base i M hM (0 :: [0, 0]) hmem
          cases ht2
      have hstriphead : stripMarked M (base ++ [i])
          (.elem "LI" v at2 [.elem "DIV" vd ad [.elem "A" va aa [.text s]],
            .elem "UL" vu au sub]) =
          .elem "LI" v at2 [.elem "DIV" vd ad [.elem "A" va aa [.text s]],
            .elem "UL" vu au (stripList M ((base ++ [i]) ++ [1]) 0 sub)] := by
        simp only [stripMarked, stripList, hcdiv, hcul, hcdiv2, hcdiv3,
          Bool.false_eq_true, if_false, List.singleton_append, List.nil_append,
          List.append_nil, Nat.zero_add]
      rw [hstriphead]
      have hMsub : ∀ p ∈ M, ∀ (j : Nat) (tail : List Nat),
          p = ((base ++ [i]) ++ [1]) ++ j :: tail → 0 ≤ j →
          p ∈ leafLIPaths ((base ++ [i]) ++ [1]) 0 sub := by
        intro p hp j tail he hj
        have he2 : p = base ++ i :: (1 :: j :: tail) := by rw [he]; simp
        obtain ⟨t2, ht2, hmem2⟩ :=
          mark_group_sub v vd va vu at2 ad aa au s sub rest base i M hM (1 :: j :: tail)
            (he2 ▸ hp)
        have hb2 : base ++ [i, 1] = (base ++ [i]) ++ [1] := by simp
        rw [hb2] at hmem2
        rw [he2]
        exact hmem2
      have hsub := strip_scan_bridge sub ((base ++ [i]) ++ [1]) 0 M hgi hMsub
      rw [scanSelf_groupItem "UL" (base ++ [i]) v vd va vu at2 ad aa au s sub]
      have hdlt : (((base ++ [i]) ++ [0, 0] : List Nat)).dropLast = (base ++ [i]) ++ [0] := by
        have he : ((base ++ [i]) ++ [0, 0] : List Nat) = ((base ++ [i]) ++ [0]) ++ [0] := by
          simp
        rw [he]
        simp
      have hpredt : (!(M.contains ((((base ++ [i]) ++ [0, 0] : List Nat)).dropLast))) = true := by
        rw [hdlt, hcdiv]
        rfl
      simp only [List.singleton_append, tscanList, List.filter_cons, hpredt, if_pos,
        List.filter_append, List.map_cons, List.map_append]
      rw [tscanSelf_groupItem "UL" v vd va vu at2 ad aa au s
        (stripList M ((base ++ [i]) ++ [1]) 0 sub)]
      rw [hsub]
      simp only [List.append_eq, List.nil_append]
      rw [hrest]
      simp [tripleOf]
    · cases hgi

/-- Appending one good item to a good item list keeps it good. -/
theorem goodItems_snoc (l : List DomNode) (x : DomNode) :
    goodItems (l ++ [x]) = (goodItems l && goodItem x) := by
  induction l with
  | nil => simp [goodItems]
  | cons c rest ih =>
    simp only [List.cons_append, List.append_eq, goodItems, ih, Bool.and_assoc]

/-- A leaf `LI` built from a clean link is a good item. -/
theorem leafLI_good (a : DomNode) (h : isCleanAnchor a = true) :
    goodItem (leafLI a) = true := by
  rw [leafLI, goodItem.eq_def]
  split
  · rename_i heq
    injections
    subst_vars
    exact h
  · rename_i heq
    simp at heq
  · rename_i h1 h2
    exact (h1 true [] a rfl).elim

/-- A group `LI` closed over a good submenu item list is a good item. -/
theorem groupLI_good (f : Frame) (hf : goodItems f.items = true) :
    goodItem (groupLI f) = true := by
  rw [groupLI, goodItem.eq_def]
  split
  · rename_i heq
    simp at heq
  · rename_i heq
    injection heq with h1 h2 h3 h4
    injection h4 with h5 h6
    injection h6 with h7 h8
    injection h7 with h9 h10 h11 h12
    rw [← h12]
    exact hf
  · rename_i h1 h2
    exact (h2 true [] true [] true [("href", "#")] f.title true [] f.items rfl).elim

/-- `pushItem` preserves the stack invariant when the pushed item is good. -/
theorem pushItem_good (st : BuildSt) (item : DomNode) (hst : goodSt st)
    (hi : goodItem item = true) : goodSt (pushItem st item) := by
  obtain ⟨hr, hf⟩ := hst
  cases hfr : st.frames with
  | nil =>
    refine ⟨?_, ?_⟩
    · simp only [pushItem, hfr, goodItems_snoc, hr, hi]
      rfl
    · intro f hmem
      simp only [pushItem, hfr] at hmem
      exact hf f (hfr ▸ hmem)
  | cons f0 frest =>
    refine ⟨?_, ?_⟩
    · simp only [pushItem, hfr]
      exact hr
    · intro f hmem
      simp only [pushItem, hfr, List.mem_cons] at hmem
      rcases hmem with hmem | hmem
      · rw [hmem]
        simp only [goodItems_snoc, hi]
        have : goodItems f0.items = true := hf f0 (by rw [hfr]; exact List.mem_cons_self f0 frest)
        rw [this]
        rfl
      · exact hf f (by rw [hfr]; exact List.mem_cons_of_mem f0 hmem)

/-- `openGroup` preserves the stack invariant. -/
theorem openGroup_good (st : BuildSt) (title : String) (hst : goodSt st) :
    goodSt (openGroup st title) := by
  obtain ⟨hr, hf⟩ := hst
  refine ⟨hr, ?_⟩
  intro f hmem
  simp only [openGroup, List.mem_cons] at hmem
  rcases hmem with hmem | hmem
  · rw [hmem]
    rfl
  · exact hf f hmem

/-- `popOne` preserves the stack invariant. -/
theorem popOne_good (st : BuildSt) (hst : goodSt st) : goodSt (popOne st) := by
  obtain ⟨hr, hf⟩ := hst
  cases hfr : st.frames with
  | nil =>
    simp only [popOne, hfr]
    exact ⟨hr, fun f hmem => hf f (hfr ▸ hmem)⟩
  | cons f0 frest =>
    simp only [popOne, hfr]
    refine pushItem_good ⟨st.root, frest⟩ (groupLI f0) ⟨hr, ?_⟩ ?_
    · intro f hmem
      exact hf f (by rw [hfr]; exact List.mem_cons_of_mem f0 hmem)
    · exact groupLI_good f0 (hf f0 (by rw [hfr]; exact List.mem_cons_self f0 frest))

/-- `popSteps` preserves the stack invariant. -/
theorem popSteps_good (k : Nat) : ∀ st : BuildSt, goodSt st → goodSt (popSteps k st) := by
  induction k with
  | zero => intro st hst; exact hst
  | succ k2 ih =>
    intro st hst
    match st with
    | ⟨root, []⟩ => exact hst
    | ⟨root, f0 :: frest⟩ =>
      exact ih (popOne ⟨root, f0 :: frest⟩) (popOne_good _ hst)

/-- The pairwise walk preserves the stack invariant when every link is a
clean anchor. -/
theorem buildWalk_good (links : List (DomNode × Nat)) :
    ∀ st : BuildSt, (∀ pr ∈ links, isCleanAnchor pr.1 = true) → goodSt st →
      goodSt (buildWalk st links) := by
  induction links with
  | nil => intro st hclean hst; exact hst
  | cons hd rest ih =>
    intro st hclean hst
    obtain ⟨a, d1⟩ := hd
    simp only [buildWalk]
    split
    · exact ih _ (fun pr hpr => hclean pr (List.mem_cons_of_mem _ hpr))
        (openGroup_good st _ hst)
    · refine ih _ (fun pr hpr => hclean pr (List.mem_cons_of_mem _ hpr)) ?_
      exact popSteps_good _ _ (pushItem_good st (leafLI a) hst
        (leafLI_good a (hclean (a, d1) (List.mem_cons_self _ _))))

/-- Closing the remaining frames yields a good item list. -/
theorem closeFrames_good (k : Nat) : ∀ st : BuildSt, goodSt st →
    goodItems (closeFrames k st) = true := by
  induction k with
  | zero =>
    intro st hst
    match st with
    | ⟨root, []⟩ => exact hst.1
    | ⟨root, f0 :: frest⟩ => exact hst.1
  | succ k2 ih =>
    intro st hst
    match st with
    | ⟨root, []⟩ => exact hst.1
    | ⟨root, f0 :: frest⟩ =>
      exact ih (popOne ⟨root, f0 :: frest⟩) (popOne_good _ hst)

/-- One section's build step keeps the accumulated root items good. -/
theorem buildSection_good (rootItems : List DomNode) (links : List (DomNode × Nat))
    (hr : goodItems rootItems = true)
    (hclean : ∀ pr ∈ links, isCleanAnchor pr.1 = true) :
    goodItems (buildSection rootItems links) = true := by
  unfold buildSection
  exact closeFrames_good _ _ (buildWalk_good links ⟨rootItems, []⟩ hclean
    ⟨hr, by intro f hmem; cases hmem⟩)

/-- The whole panel body is a good item list whenever every collected link
is a clean anchor (no nested anchor elements — what valid HTML guarantees). -/
theorem buildPanelItems_good (sections : List DomNode)
    (hclean : ∀ nav ∈ sections, ∀ pr ∈ labelNavDepth nav 0 false,
      isCleanAnchor pr.1 = true) :
    goodItems (buildPanelItems sections) = true := by
  unfold buildPanelItems
  have hgen : ∀ (secs : List DomNode) (acc : List DomNode),
      (∀ nav ∈ secs, ∀ pr ∈ labelNavDepth nav 0 false, isCleanAnchor pr.1 = true) →
      goodItems acc = true →
      goodItems (secs.foldl
        (fun acc2 nav => buildSection acc2 (labelNavDepth nav 0 false)) acc) = true := by
    intro secs
    induction secs with
    | nil => intro acc hcl hacc; exact hacc
    | cons nav rest ih =>
      intro acc hcl hacc
      simp only [List.foldl_cons]
      refine ih _ (fun n hn pr hpr => hcl n (List.mem_cons_of_mem _ hn) pr hpr) ?_
      exact buildSection_good acc _ hacc
        (fun pr hpr => hcl nav (List.mem_cons_self _ _) pr hpr)
  exact hgen sections [] hclean rfl

mutual

/-- Within one subtree scan, no two records share a path. -/
theorem scanSelf_paths_nodup (c : DomNode) :
    ∀ (pt : String) (path : List Nat),
      (scanSelf pt path c).Pairwise (fun a b => a.path ≠ b.path) := by
  match c with
  | .text s => intro pt path; exact List.Pairwise.nil
  | .elem tag vis attrs cs =>
    intro pt path
    simp only [scanSelf]
    rw [List.pairwise_append]
    refine ⟨?_, scanList_paths_nodup cs tag path 0, ?_⟩
    · by_cases hA : (jsUpper tag == "A") = true
      · rw [if_pos hA]
        exact List.pairwise_singleton _ _
      · rw [if_neg hA]
        exact List.Pairwise.nil
    · intro a ha b hb
      by_cases hA : (jsUpper tag == "A") = true
      · rw [if_pos hA] at ha
        have e0 := List.mem_singleton.mp ha
        have e1 : a.path = path := by rw [e0]
        obtain ⟨j, hj, hpre⟩ := scanList_path_prefix cs tag path 0 b hb
        have hlen : path.length + 1 ≤ b.path.length := by
          have := hpre.length_le
          simp at this
          omega
        intro he
        rw [e1] at he
        rw [← he] at hlen
        omega
      · rw [if_neg hA] at ha
        cases ha

/-- Within one child-list scan, no two records share a path. -/
theorem scanList_paths_nodup (cs : List DomNode) :
    ∀ (pt : String) (base : List Nat) (i : Nat),
      (scanList pt base i cs).Pairwise (fun a b => a.path ≠ b.path) := by
  match cs with
  | [] => intro pt base i; exact List.Pairwise.nil
  | c :: rest =>
    intro pt base i
    simp only [scanList]
    rw [List.pairwise_append]
    refine ⟨scanSelf_paths_nodup c pt (base ++ [i]),
      scanList_paths_nodup rest pt base (i + 1), ?_⟩
    intro a ha b hb
    have hpx : (base ++ [i]) <+: a.path := scanSelf_path_prefix c pt (base ++ [i]) a ha
    obtain ⟨j, hj, hpy⟩ := scanList_path_prefix rest pt base (i + 1) b hb
    intro he
    rw [he] at hpx
    have hor := List.prefix_or_prefix_of_prefix hpx hpy
    have heq : base ++ [i] = base ++ [j] := by
      rcases hor with hor | hor
      · exact hor.eq_of_length (by simp)
      · exact (hor.eq_of_length (by simp)).symm
    have : i = j := by simpa using heq
    omega

end

/-- Over a list with pairwise-distinct paths, a `flagDup` entry is determined
by its record's path: the flag is a function of the position, and distinct
positions carry distinct paths. -/
theorem flagDup_entry_unique (as : List AnchorRec) :
    ∀ (prev : List AnchorRec), as.Pairwise (fun a b => a.path ≠ b.path) →
      ∀ p q : AnchorRec × Bool, p ∈ flagDup prev as → q ∈ flagDup prev as →
        p.1.path = q.1.path → p = q := by
  induction as with
  | nil => intro prev hnd p q hp; cases hp
  | cons a rest ih =>
    intro prev hnd p q hp hq he
    have hnd2 := List.pairwise_cons.mp hnd
    simp only [flagDup, List.mem_cons] at hp hq
    rcases hp with hp | hp <;> rcases hq with hq | hq
    · rw [hp, hq]
    · exfalso
      have hq1 : q.1 ∈ rest := by
        rw [← flagDup_fst rest (prev ++ [a])]
        exact List.mem_map_of_mem Prod.fst hq
      have hne := hnd2.1 q.1 hq1
      rw [hp] at he
      exact hne he
    · exfalso
      have hp1 : p.1 ∈ rest := by
        rw [← flagDup_fst rest (prev ++ [a])]
        exact List.mem_map_of_mem Prod.fst hp
      have hne := hnd2.1 p.1 hp1
      rw [hq] at he
      exact hne he.symm
    · exact ih (prev ++ [a]) hnd2.2 p q hp hq he

/-- Every removal mark is the parent path of some flagged `LI`-parented entry
of the scan. -/
theorem marksSpec_mem (as : List AnchorRec) (p : List Nat)
    (hp : p ∈ marksSpec as) :
    ∃ pr ∈ flagDup [] as, (pr.2 && (jsUpper pr.1.parentTag == "LI")) = true ∧
      p = pr.1.path.dropLast := by
  simp only [marksSpec] at hp
  obtain ⟨pr, hpr, he⟩ := List.mem_filterMap.mp hp
  by_cases hc : (pr.2 && (jsUpper pr.1.parentTag == "LI")) = true
  · rw [if_pos hc] at he
    exact ⟨pr, hpr, hc, (Option.some.injEq .. ▸ he).symm⟩
  · rw [if_neg hc] at he
    cases he

/-- On the scan of a well-shaped item list, every removal mark is a leaf `LI`
path of the list. -/
theorem marksSpec_leafPaths (items : List DomNode) (base : List Nat) (i : Nat)
    (hg : goodItems items = true) (p : List Nat)
    (hp : p ∈ marksSpec (scanList "UL" base i items)) :
    p ∈ leafLIPaths base i items := by
  obtain ⟨pr, hpr, hc, he⟩ := marksSpec_mem _ p hp
  have hmem : pr.1 ∈ scanList "UL" base i items := by
    rw [← flagDup_fst (scanList "UL" base i items) []]
    exact List.mem_map_of_mem Prod.fst hpr
  rcases scan_good_parent items base i hg pr.1 hmem with
    ⟨h1, h2, h3, h4, h5⟩ | ⟨h1, h2, h3⟩
  · rw [he]
    exact h3
  · exfalso
    have hLI := (Bool.and_eq_true _ _ |>.mp hc).2
    rw [h1] at hLI
    exact absurd hLI (by decide)

/-- On a well-shaped scan, a record's parent path is marked exactly when the
record itself is a flagged `LI`-parented repeat. -/
theorem mark_contains_iff (items : List DomNode) (base : List Nat) (i : Nat)
    (hg : goodItems items = true) (pr : AnchorRec × Bool)
    (hpr : pr ∈ flagDup [] (scanList "UL" base i items)) :
    (marksSpec (scanList "UL" base i items)).contains pr.1.path.dropLast =
      (pr.2 && (jsUpper pr.1.parentTag == "LI")) := by
  by_cases hflag : (pr.2 && (jsUpper pr.1.parentTag == "LI")) = true
  · rw [hflag]
    have hmem : pr.1.path.dropLast ∈ marksSpec (scanList "UL" base i items) := by
      simp only [marksSpec]
      refine List.mem_filterMap.mpr ⟨pr, hpr, ?_⟩
      rw [if_pos hflag]
    simpa using hmem
  · have hfalse : (pr.2 && (jsUpper pr.1.parentTag == "LI")) = false := by
      cases h : (pr.2 && (jsUpper pr.1.parentTag == "LI"))
      · rfl
      · exact absurd h hflag
    rw [hfalse]
    cases hcon : (marksSpec (scanList "UL" base i items)).contains pr.1.path.dropLast
    · rfl
    · exfalso
      have hmem : pr.1.path.dropLast ∈ marksSpec (scanList "UL" base i items) := by
        simpa using hcon
      obtain ⟨qr, hqr, hqc, hqe⟩ := marksSpec_mem _ _ hmem
      have hq1 : qr.1 ∈ scanList "UL" base i items := by
        rw [← flagDup_fst (scanList "UL" base i items) []]
        exact List.mem_map_of_mem Prod.fst hqr
      have hp1 : pr.1 ∈ scanList "UL" base i items := by
        rw [← flagDup_fst (scanList "UL" base i items) []]
        exact List.mem_map_of_mem Prod.fst hpr
      rcases scan_good_parent items base i hg qr.1 hq1 with
        ⟨q1, q2, q3, q4, q5⟩ | ⟨q1, q2, q3⟩
      · rcases scan_good_parent items base i hg pr.1 hp1 with
          ⟨p1, p2, p3, p4, p5⟩ | ⟨p1, p2, p3⟩
        · have hpaths : pr.1.path = qr.1.path := by
            rw [p2, q2, hqe]
          have hpq : pr = qr :=
            flagDup_entry_unique (scanList "UL" base i items) []
              (scanList_paths_nodup items "UL" base i) pr qr hpr hqr hpaths
          rw [hpq] at hfalse
          rw [hqc] at hfalse
          cases hfalse
        · have hparq := leafLIPaths_parity items base i qr.1.path.dropLast q3
          have hlq : qr.1.path.dropLast.length = qr.1.path.length - 1 :=
            List.length_dropLast qr.1.path
          have hlp : pr.1.path.dropLast.length = pr.1.path.length - 1 :=
            List.length_dropLast pr.1.path
          have hle : pr.1.path.dropLast.length = qr.1.path.dropLast.length := by
            rw [hqe]
          omega
      · have hLI := (Bool.and_eq_true _ _ |>.mp hqc).2
        rw [q1] at hLI
        exact absurd hLI (by decide)

/-- Filtering a first-projection list by a predicate on the records is a
`filterMap` over the flagged pairs. -/
theorem map_fst_filter_map {α γ : Type} (F : List (α × Bool)) (pred : α → Bool)
    (g : α → γ) :
    ((F.map Prod.fst).filter pred).map g =
      F.filterMap (fun p => if pred p.1 then some (g p.1) else none) := by
  induction F with
  | nil => rfl
  | cons pr rest ih => cases hc : pred pr.1 <;> simp [hc, ih]

/-- `filterMap` only looks at its function's values on members. -/
theorem filterMap_congr_mem {α γ : Type} (l : List α) (f g : α → Option γ)
    (h : ∀ a ∈ l, f a = g a) : l.filterMap f = l.filterMap g := by
  induction l with
  | nil => rfl
  | cons a rest ih =>
    have h0 := h a (List.mem_cons_self a rest)
    have ih2 := ih (fun b hb => h b (List.mem_cons_of_mem a hb))
    simp only [List.filterMap_cons, h0, ih2]

/-- Phase two of dedup as a filter of the scan: on a well-shaped scan,
dropping the records whose parent path is marked keeps exactly the entries
not flagged as `LI`-parented repeats. -/
theorem dedup_filter_flags (items : List DomNode) (base : List Nat) (i : Nat)
    (hg : goodItems items = true) :
    ((scanList "UL" base i items).filter
        (fun a =>
          !((marksSpec (scanList "UL" base i items)).contains a.path.dropLast))).map
      tripleOf =
    (flagDup [] (scanList "UL" base i items)).filterMap
      (fun p => if p.2 && (jsUpper p.1.parentTag == "LI") then none
        else some (tripleOf p.1)) := by
  have h1 := map_fst_filter_map (flagDup [] (scanList "UL" base i items))
    (fun a =>
      !((marksSpec (scanList "UL" base i items)).contains a.path.dropLast)) tripleOf
  rw [flagDup_fst (scanList "UL" base i items) []] at h1
  rw [h1]
  refine filterMap_congr_mem _ _ _ ?_
  intro pr hpr
  simp only [mark_contains_iff items base i hg pr hpr]
  cases hc : (pr.2 && (jsUpper pr.1.parentTag == "LI")) <;> simp [hc]

/-- The panel scan starts right below the top-level `UL`: the `NAV` and `UL`
wrappers contribute no anchors of their own. -/
theorem anchors_panel (sections : List DomNode) :
    anchors (constructNavPanel sections) =
      scanList "UL" [0] 0 (buildPanelItems sections) := by
  have hUL : (jsUpper "UL" == "A") = false := by decide
  simp [anchors, constructNavPanel, nodeName, childrenOf, scanList, scanSelf, hUL]

/-- Claim C3 (amended): for every panel built from sections whose collected
links are clean anchors, the anchors surviving deduplication are, in document
order, exactly the anchors of the constructed panel that are not
`LI`-parented repeats — an anchor is dropped iff its parent is an `LI` and
some earlier anchor (leaf clone or `DIV`-parented submenu title alike) had
the same `(href, lowercased label)` key.  In particular a leaf is not always
survived by "exactly one" representative of its key: when a submenu title
holds the key first, every same-key leaf is deleted and only the title
remains. -/
theorem C3_dedup_keeps_exactly_unflagged_anchors (sections : List DomNode)
    (hclean : ∀ nav ∈ sections, ∀ pr ∈ labelNavDepth nav 0 false,
      isCleanAnchor pr.1 = true) :
    panelTriples (dedupNavMenuItems (constructNavPanel sections)) =
      (flagDup [] (anchors (constructNavPanel sections))).filterMap
        (fun p => if p.2 && (jsUpper p.1.parentTag == "LI") then none
          else some (tripleOf p.1)) := by
  have hg : goodItems (buildPanelItems sections) = true :=
    buildPanelItems_good sections hclean
  have hanch := anchors_panel sections
  have hM : dedupMarks (anchors (constructNavPanel sections)) =
      marksSpec (scanList "UL" [0] 0 (buildPanelItems sections)) := by
    rw [hanch, dedupMarks_eq_spec]
  have hMleaf : ∀ p ∈ dedupMarks (anchors (constructNavPanel sections)),
      p ∈ leafLIPaths [0] 0 (buildPanelItems sections) := by
    intro p hp
    rw [hM] at hp
    exact marksSpec_leafPaths _ [0] 0 hg p hp
  have hc0 : (dedupMarks (anchors (constructNavPanel sections))).contains
      ([0] : List Nat) = false := by
    cases h : (dedupMarks (anchors (constructNavPanel sections))).contains
        ([0] : List Nat)
    · rfl
    · exfalso
      have hmem : ([0] : List Nat) ∈
          dedupMarks (anchors (constructNavPanel sections)) := by
        simpa using h
      have hlen := (leafLIPaths_extends (buildPanelItems sections) [0] 0 [0]
        (hMleaf [0] hmem)).2
      simp at hlen
  have hstrip : dedupNavMenuItems (constructNavPanel sections) =
      DomNode.elem "NAV" true [("id", navPanelId)]
        [DomNode.elem "UL" true [("class", "open")]
          (stripList (dedupMarks (anchors (constructNavPanel sections))) [0] 0
            (buildPanelItems sections))] := by
    rw [dedupNavMenuItems]
    generalize hMg : dedupMarks (anchors (constructNavPanel sections)) = M at hc0 ⊢
    rw [constructNavPanel]
    simp only [stripMarked, stripList, List.nil_append, hc0, Bool.false_eq_true,
      if_false, List.singleton_append, List.append_nil]
  rw [hstrip]
  have hUL : (jsUpper "UL" == "A") = false := by decide
  simp only [panelTriples, nodeName, childrenOf, tscanList, tscanSelf, hUL,
    Bool.false_eq_true, if_false, List.nil_append, List.append_nil]
  have hbridge := strip_scan_bridge (buildPanelItems sections) [0] 0
    (dedupMarks (anchors (constructNavPanel sections))) hg
    (fun p hp j tail he hj => hMleaf p hp)
  rw [hbridge]
  rw [hM]
  rw [dedup_filter_flags (buildPanelItems sections) [0] 0 hg]
  rw [hanch]

/-- Concrete instance of the amended C3 theorem on the C3 section: its links
are clean and the survivors equal the unflagged anchors. -/
theorem C3_dedup_keeps_exactly_unflagged_anchors_witness :
    (∀ nav ∈ [c3Section], ∀ pr ∈ labelNavDepth nav 0 false,
      isCleanAnchor pr.1 = true) ∧
    panelTriples (dedupNavMenuItems (constructNavPanel [c3Section])) =
      (flagDup [] (anchors (constructNavPanel [c3Section]))).filterMap
        (fun p => if p.2 && (jsUpper p.1.parentTag == "LI") then none
          else some (tripleOf p.1)) :=
  ⟨by decide, C3_dedup_keeps_exactly_unflagged_anchors [c3Section] (by decide)⟩

/-- Claim C3 (counterexample): in the C3 panel the key `(#, foo)` is carried
by a `DIV`-parented submenu title and two later case-variant leaves; the
claim says exactly one of the two leaves survives (the first in document
order), but the title already holds the key when the leaves are scanned, so
both leaves are marked and deleted: no leaf with that key survives at all. -/
theorem C3_counterexample_title_key_removes_every_leaf :
    ((anchors c3Panel).filter
      (fun a => a.parentTag == "LI" && a.href == "#" && a.label == "foo")).length
        = 2 ∧
    ((anchors (dedupNavMenuItems c3Panel)).filter
      (fun a => a.parentTag == "LI" && a.href == "#" && a.label == "foo")).length
        = 0 :=
  ⟨rfl, rfl⟩

/-- Claim C10: deduplication deletes an entry only when the repeated anchor's
immediate parent is an `LI` element — every removal mark is the parent path
of a flagged `LI`-parented scan entry — and a repeated `(href, lowercased
label)` anchor whose direct parent is not an `LI`, such as the C10 panel's
`DIV`-wrapped submenu title repeating the key `(#, foo)` of an earlier leaf,
is left in the panel by the dedup pass. -/
theorem C10_non_li_parent_repeats_survive :
    (∀ (as : List AnchorRec) (p : List Nat), p ∈ dedupMarks as →
      ∃ pr ∈ flagDup [] as, (pr.2 && (jsUpper pr.1.parentTag == "LI")) = true ∧
        p = pr.1.path.dropLast) ∧
    ((anchors c10Panel).filter
      (fun a => a.parentTag == "DIV" && a.href == "#" && a.label == "foo")).length
        = 1 ∧
    (flagDup [] (anchors c10Panel)).any
      (fun pr => pr.2 && (pr.1.parentTag == "DIV") && (pr.1.href == "#") &&
        (pr.1.label == "foo")) = true ∧
    ((anchors (dedupNavMenuItems c10Panel)).filter
      (fun a => a.parentTag == "DIV" && a.href == "#" && a.label == "foo")).length
        = 1 := by
  refine ⟨?_, rfl, rfl, rfl⟩
  intro as p hp
  rw [dedupMarks_eq_spec] at hp
  exact marksSpec_mem as p hp

/-- A filter by an everywhere-false predicate is empty. -/
theorem filter_none {α : Type} (l : List α) (p : α → Bool)
    (h : ∀ a ∈ l, p a = false) : l.filter p = [] := by
  induction l with
  | nil => rfl
  | cons a rest ih =>
    rw [List.filter_cons, h a (List.mem_cons_self a rest)]
    simp only [Bool.false_eq_true, if_false]
    exact ih (fun b hb => h b (List.mem_cons_of_mem a hb))

/-- The membership condition at the root itself. -/
theorem offPred_nil (cls idA pos : String) (top : Option Int)
    (cs : List StyledNode) (fpo : Bool) :
    offPred (.mk cls idA pos top cs) fpo [] =
      (offsetEligible (.mk cls idA pos top cs) &&
        (top.isSome && ((pos == "fixed") || ((pos == "absolute") && !fpo)))) := by
  simp only [offPred, pathEligible, snAt, snTop, snPos, strictAncestorsStatic,
    Bool.and_true]

/-- The membership condition one step down: pass the guard, enter the child,
and switch the flag on below a non-static root. -/
theorem offPred_cons (cls idA pos : String) (top : Option Int)
    (cs : List StyledNode) (fpo : Bool) (j : Nat) (rel : List Nat) :
    offPred (.mk cls idA pos top cs) fpo (j :: rel) =
      (offsetEligible (.mk cls idA pos top cs) &&
        (match cs.get? j with
         | some c => offPred c (fpo || !(pos == "static")) rel
         | none => false)) := by
  cases hg : cs.get? j with
  | none =>
    simp only [offPred, pathEligible, snAt, strictAncestorsStatic, hg]
    simp
  | some c =>
    simp only [offPred, pathEligible, snAt, strictAncestorsStatic, hg]
    cases hA : snAt c rel with
    | none => simp
    | some t =>
      simp only [hA]
      cases (offsetEligible (.mk cls idA pos top cs)) <;>
        cases (pathEligible c rel) <;>
          cases ((snTop t).isSome) <;>
            cases (snPos t == "fixed") <;>
              cases (snPos t == "absolute") <;>
                cases fpo <;>
                  cases (pos == "static") <;>
                    cases (strictAncestorsStatic c rel) <;> rfl

mutual

/-- The offset pre-pass emits exactly the paths satisfying the declarative
membership condition, in document order. -/
theorem findElementsToOffsetHelper_eq_filter (e : StyledNode) :
    ∀ (fpo : Bool) (path : List Nat),
      findElementsToOffsetHelper e fpo path =
        ((allRel e).filter (offPred e fpo)).map (fun rel => path ++ rel) := by
  match e with
  | .mk cls idA pos top cs =>
    intro fpo path
    by_cases helig : offsetEligible (.mk cls idA pos top cs) = true
    · by_cases hstat : (pos == "static") = true
      · have hpos : pos = "static" := eq_of_beq hstat
        subst hpos
        have hss : (("static" : String) == "static") = true := by decide
        simp only [findElementsToOffsetHelper]
        rw [if_pos helig, if_pos hss]
        simp only [allRel]
        have h1 : (("static" : String) == "fixed") = false := by decide
        have h2 : (("static" : String) == "absolute") = false := by decide
        have hpred0 : offPred (.mk cls idA "static" top cs) fpo [] = false := by
          rw [offPred_nil, h1, h2]
          simp
        rw [List.filter_cons, hpred0]
        simp only [Bool.false_eq_true, if_false]
        refine findElementsToOffsetList_eq_filter cs fpo path 0 _ fpo ?_
        intro j rel hj
        rw [offPred_cons, helig, Bool.true_and, Nat.sub_zero]
        simp only [hss, Bool.not_true, Bool.or_false]
      · have hstatf : (pos == "static") = false := by
          cases h : (pos == "static")
          · rfl
          · exact absurd h hstat
        have htail : findElementsToOffsetList cs true path 0 =
            ((allRelList cs 0).filter
              (offPred (.mk cls idA pos top cs) fpo)).map
              (fun rel => path ++ rel) := by
          refine findElementsToOffsetList_eq_filter cs true path 0 _ fpo ?_
          intro j rel hj
          rw [offPred_cons, helig, Bool.true_and, Nat.sub_zero]
          simp only [hstatf, Bool.not_false, Bool.or_true]
        have hor : ((pos == "fixed") || (!fpo && (pos == "absolute"))) =
            ((pos == "fixed") || ((pos == "absolute") && !fpo)) := by
          cases (pos == "fixed") <;> cases fpo <;> cases (pos == "absolute") <;> rfl
        simp only [findElementsToOffsetHelper]
        rw [if_pos helig, if_neg (by simp [hstatf])]
        simp only [allRel]
        cases top with
        | none =>
          have hpred0 : offPred (.mk cls idA pos none cs) fpo [] = false := by
            rw [offPred_nil]
            simp
          rw [List.filter_cons, hpred0]
          simp only [Bool.false_eq_true, if_false, List.nil_append]
          exact htail
        | some v =>
          show (if ((pos == "fixed") || (!fpo && (pos == "absolute"))) then [path]
              else []) ++ findElementsToOffsetList cs true path 0 =
            ((([] : List Nat) :: allRelList cs 0).filter
              (offPred (.mk cls idA pos (some v) cs) fpo)).map
              (fun rel => path ++ rel)
          by_cases hcond : ((pos == "fixed") || ((pos == "absolute") && !fpo)) = true
          · have hcond1 : ((pos == "fixed") || (!fpo && (pos == "absolute"))) = true :=
              hor.trans hcond
            have hpred0 : offPred (.mk cls idA pos (some v) cs) fpo [] = true := by
              rw [offPred_nil, helig, hcond]
              simp
            rw [if_pos hcond1, List.filter_cons, hpred0]
            simp only [if_true, List.map_cons, List.append_nil, List.singleton_append]
            rw [htail]
          · have hcondf : ((pos == "fixed") || ((pos == "absolute") && !fpo)) = false := by
              cases h : ((pos == "fixed") || ((pos == "absolute") && !fpo))
              · rfl
              · exact absurd h hcond
            have hcond1 : ((pos == "fixed") || (!fpo && (pos == "absolute"))) = false :=
              hor.trans hcondf
            have hpred0 : offPred (.mk cls idA pos (some v) cs) fpo [] = false := by
              rw [offPred_nil, hcondf]
              simp
            rw [if_neg (by simp [hcond1]), List.filter_cons, hpred0]
            simp only [Bool.false_eq_true, if_false, List.nil_append]
            exact htail
    · have heligf : offsetEligible (.mk cls idA pos top cs) = false := by
        cases h : offsetEligible (.mk cls idA pos top cs)
        · rfl
        · exact absurd h helig
      simp only [findElementsToOffsetHelper]
      rw [if_neg (by simp [heligf])]
      have hall : ∀ rel ∈ allRel (.mk cls idA pos top cs),
          offPred (.mk cls idA pos top cs) fpo rel = false := by
        intro rel hrel
        cases rel with
        | nil =>
          rw [offPred_nil, heligf]
          rfl
        | cons j rest =>
          rw [offPred_cons, heligf]
          rfl
      rw [filter_none _ _ hall]
      rfl

/-- The child loop emits exactly the filtered paths of the child list, given
that the parent's membership condition restricts to each child's. -/
theorem findElementsToOffsetList_eq_filter (cs : List StyledNode) :
    ∀ (fpo : Bool) (base : List Nat) (i : Nat) (e0 : StyledNode) (fpo0 : Bool),
      (∀ (j : Nat) (rel : List Nat), i ≤ j →
        offPred e0 fpo0 (j :: rel) =
          (match cs.get? (j - i) with
           | some c => offPred c fpo rel
           | none => false)) →
      findElementsToOffsetList cs fpo base i =
        ((allRelList cs i).filter (offPred e0 fpo0)).map
          (fun rel => base ++ rel) := by
  match cs with
  | [] => intro fpo base i e0 fpo0 hp; rfl
  | c :: rest =>
    intro fpo base i e0 fpo0 hp
    simp only [findElementsToOffsetList, allRelList, List.filter_append,
      List.map_append]
    congr 1
    · rw [List.filter_map, List.map_map]
      rw [findElementsToOffsetHelper_eq_filter c fpo (base ++ [i])]
      have hfeq : (offPred e0 fpo0 ∘ fun rel => i :: rel) = offPred c fpo := by
        funext rel
        have h0 := hp i rel (Nat.le_refl i)
        rw [Nat.sub_self] at h0
        exact h0
      rw [hfeq]
      have hmeq : ((fun rel => base ++ rel) ∘ fun rel => i :: rel) =
          (fun rel => (base ++ [i]) ++ rel) := by
        funext rel
        simp
      rw [hmeq]
    · refine findElementsToOffsetList_eq_filter rest fpo base (i + 1) e0 fpo0 ?_
      intro j rel hj
      rw [hp j rel (by omega)]
      have hk : j - i = (j - (i + 1)) + 1 := by omega
      rw [hk]
      rfl

end

/-- Claim C7 (amended): the offset pre-pass tracks exactly the elements,
outside the pruned scrim/`psmob-` subtrees, whose computed position is
`fixed` with a pixel `top`, or `absolute` with a pixel `top` and every
strict ancestor (the body included) of `static` position; their paths are
listed in document order.  An element of `relative` position is never
tracked, nor is an `absolute` element below a non-static ancestor. -/
theorem C7_offset_members_characterized (body : StyledNode) :
    findElementsToOffset body = (allRel body).filter (offPred body false) := by
  rw [findElementsToOffset, findElementsToOffsetHelper_eq_filter body false []]
  simp

/-- Claim C7 (counterexample): the claim makes every non-overlay element
with non-static position and a pixel `top` a member; the body's child is
unpruned, has `relative` position and `top: 10px`, yet the pre-pass returns
nothing — `relative` elements are never tracked. -/
theorem C7_relative_member_not_tracked :
    findElementsToOffset c7Body = [] ∧
    (snPos c7Child == "static") = false ∧
    (snTop c7Child).isSome = true ∧
    offsetEligible c7Child = true ∧
    snAt c7Body [0] = some c7Child :=
  ⟨rfl, rfl, rfl, rfl, rfl⟩

/-- Claim C4: on the first redraw every tracked element with non-static
position and pixel computed `top` gets its top set to its absolute position
plus `newHeight`, and no scroll compensation fires; on a later redraw with
`Δ = newHeight − oldHeight ≠ 0` every such element with a parsed inline top
moves by exactly `Δ` and the scroll position is compensated by exactly `Δ`;
on a later redraw with `Δ = 0` no compensation call occurs and the scroll
position is untouched. -/
theorem C4_redraw_offsets_and_scroll (st : HeaderState) (om nm : Int) :
    (st.redrawNavCalled = false →
      (redrawHeader st om nm).2 = none ∧
      ∀ (k : Nat) (el : OffEl), st.offsets.get? k = some el →
        (!(el.position == "static") && el.topPx.isSome) = true →
        ∃ el2, (redrawHeader st om nm).1.offsets.get? k = some el2 ∧
          el2.styleTop = some (el.rectTop + nm)) ∧
    (st.redrawNavCalled = true →
      (nm ≠ oldHeightOf st om →
        (redrawHeader st om nm).2 = some (nm - oldHeightOf st om) ∧
        (redrawHeader st om nm).1.scrollY =
          st.scrollY + (nm - oldHeightOf st om) ∧
        ∀ (k : Nat) (el : OffEl) (t : Int), st.offsets.get? k = some el →
          (!(el.position == "static") && el.topPx.isSome) = true →
          el.styleTop = some t →
          ∃ el2, (redrawHeader st om nm).1.offsets.get? k = some el2 ∧
            el2.styleTop = some (t + (nm - oldHeightOf st om))) ∧
      (nm = oldHeightOf st om →
        (redrawHeader st om nm).2 = none ∧
        (redrawHeader st om nm).1.scrollY = st.scrollY)) := by
  refine ⟨?_, ?_⟩
  · intro hfirst
    constructor
    · simp [redrawHeader, hfirst]
    · intro k el hk helig
      refine ⟨{ el with styleTop := some (el.rectTop + nm) }, ?_, rfl⟩
      simp only [redrawHeader]
      rw [List.get?_map, hk]
      simp only [Option.map_some']
      rw [if_pos helig, if_neg (by rw [hfirst]; exact Bool.false_ne_true)]
  · intro hcalled
    refine ⟨?_, ?_⟩
    · intro hne
      have hbeq : (nm == oldHeightOf st om) = false := beq_eq_false_iff_ne.mpr hne
      refine ⟨?_, ?_, ?_⟩
      · simp [redrawHeader, hcalled, hbeq]
      · simp [redrawHeader, hcalled, hbeq]
      · intro k el t hk helig ht
        refine ⟨{ el with styleTop := some (t + (nm - oldHeightOf st om)) }, ?_, rfl⟩
        simp only [redrawHeader]
        rw [List.get?_map, hk]
        simp only [Option.map_some']
        rw [if_pos helig, if_pos hcalled, ht]
    · intro heq
      have hbeq : (nm == oldHeightOf st om) = true := beq_iff_eq.mpr heq
      constructor
      · simp [redrawHeader, hcalled, hbeq]
      · simp [redrawHeader, hcalled, hbeq]

/-- The id loop over an appended list runs the first part, then the second
from the reached state. -/
theorem processIds_append (xs ys : List String) :
    ∀ st : NavSt, processIds st (xs ++ ys) =
      match processIds st xs with
      | none => none
      | some (st2, evs) =>
        match processIds st2 ys with
        | none => none
        | some (stF, evs2) => some (stF, evs ++ evs2) := by
  induction xs with
  | nil =>
    intro st
    simp only [List.nil_append, processIds]
    cases h : processIds st ys with
    | none => rfl
    | some pr =>
      obtain ⟨stF, evs2⟩ := pr
      rfl
  | cons x xt ih =>
    intro st
    simp only [List.cons_append, processIds]
    cases hx : processId st x with
    | none => rfl
    | some pr =>
      obtain ⟨st2, ev⟩ := pr
      dsimp only
      simp only [List.append_eq]
      rw [ih st2]
      cases h2 : processIds st2 xt with
      | none => rfl
      | some pr2 =>
        obtain ⟨st3, evs⟩ := pr2
        dsimp only
        cases h3 : processIds st3 ys with
        | none => rfl
        | some pr3 =>
          obtain ⟨stF, evs2⟩ := pr3
          simp

/-- Claim C8 (amended): an id that resolves to nothing makes
`element.parentNode` throw, and the exception aborts the whole discovery:
whenever the loop reaches a state in which the next id fails to resolve, the
run over the remaining ids — however many follow — produces nothing at all,
rather than skipping the failing id. -/
theorem C8_resolution_failure_aborts (st st1 : NavSt) (ids1 : List String)
    (id : String) (ids2 : List String)
    (h1 : (processIds st ids1).map Prod.fst = some st1)
    (h2 : resolveId st1.doc id = none) :
    processIds st (ids1 ++ id :: ids2) = none := by
  rw [processIds_append]
  cases hp : processIds st ids1 with
  | none => rfl
  | some pr =>
    obtain ⟨st2, evs⟩ := pr
    have hst : st2 = st1 := by
      rw [hp] at h1
      simpa using h1
    rw [hst]
    simp only [processIds, processId, h2]

/-- Concrete instance of the amended C8 theorem: the empty prefix reaches
the initial state, `missing` fails there, and the run over
`["missing", "b"]` aborts. -/
theorem C8_resolution_failure_aborts_witness :
    (processIds ⟨c8Doc, [], []⟩ []).map Prod.fst =
        some (⟨c8Doc, [], []⟩ : NavSt) ∧
    resolveId c8Doc "missing" = none ∧
    processIds ⟨c8Doc, [], []⟩ ([] ++ "missing" :: ["b"]) = none :=
  ⟨rfl, rfl,
    C8_resolution_failure_aborts ⟨c8Doc, [], []⟩ ⟨c8Doc, [], []⟩ [] "missing"
      ["b"] rfl rfl⟩

/-- Claim C8 (counterexample): with the id list `["missing", "b"]` the first
id resolves to nothing and discovery returns nothing at all, although the
remaining id alone yields a section — the failure prevents the processing of
every later id instead of leaving their sections unchanged. -/
theorem C8_missing_id_kills_later_ids :
    resolveId c8Doc "missing" = none ∧
    findNavSections c8Doc (some ["missing", "b"]) = none ∧
    findNavSections c8Doc (some ["b"]) =
      some (.elem "BODY" true [("id", "PageSpeed-b-P")] [c8Target], [[]]) :=
  ⟨rfl, rfl, rfl⟩

mutual

/-- A successful preorder search lands on a node satisfying the predicate. -/
theorem findP_sound (d : DomNode) :
    ∀ (pred : DomNode → Bool) (p : List Nat), findP pred d = some p →
      ∃ t, nodeAt d p = some t ∧ pred t = true := by
  match d with
  | .text s =>
    intro pred p h
    by_cases hp : pred (.text s) = true
    · rw [findP, if_pos hp] at h
      injection h with h2
      subst h2
      exact ⟨.text s, rfl, hp⟩
    · rw [findP, if_neg hp] at h
      cases h
  | .elem tag vis attrs cs =>
    intro pred p h
    by_cases hp : pred (.elem tag vis attrs cs) = true
    · rw [findP, if_pos hp] at h
      injection h with h2
      subst h2
      exact ⟨.elem tag vis attrs cs, rfl, hp⟩
    · rw [findP, if_neg hp] at h
      obtain ⟨j, rest, hq, hj, c, hc, hfc, t, ht, hpt⟩ := findPL_sound cs pred 0 p h
      refine ⟨t, ?_, hpt⟩
      rw [hq]
      rw [Nat.sub_zero] at hc
      simp only [nodeAt, hc]
      exact ht

/-- A successful child-list search enters the child at the reported index
and lands on a node satisfying the predicate. -/
theorem findPL_sound (cs : List DomNode) :
    ∀ (pred : DomNode → Bool) (i : Nat) (q : List Nat), findPL pred cs i = some q →
      ∃ j rest, q = j :: rest ∧ i ≤ j ∧ ∃ c, cs.get? (j - i) = some c ∧
        findP pred c = some rest ∧
        ∃ t, nodeAt c rest = some t ∧ pred t = true := by
  match cs with
  | [] => intro pred i q h; cases h
  | c :: rest2 =>
    intro pred i q h
    simp only [findPL] at h
    cases hf : findP pred c with
    | some p0 =>
      rw [hf] at h
      injection h with h2
      obtain ⟨t, ht, hpt⟩ := findP_sound c pred p0 hf
      refine ⟨i, p0, h2.symm, Nat.le_refl i, c, ?_, hf, t, ht, hpt⟩
      rw [Nat.sub_self]
      rfl
    | none =>
      rw [hf] at h
      obtain ⟨j, rest, hq, hj, c2, hc2, hfc2, t, ht, hpt⟩ :=
        findPL_sound rest2 pred (i + 1) q h
      refine ⟨j, rest, hq, by omega, c2, ?_, hfc2, t, ht, hpt⟩
      have hk : j - i = (j - (i + 1)) + 1 := by omega
      rw [hk]
      exact hc2

end

/-- A deep hit means the root misses and the children were searched. -/
theorem findP_root_miss (pred : DomNode → Bool) (tag : String) (vis : Bool)
    (attrs : List (String × String)) (cs : List DomNode) (j : Nat)
    (rest : List Nat) (h : findP pred (.elem tag vis attrs cs) = some (j :: rest)) :
    pred (.elem tag vis attrs cs) = false ∧ findPL pred cs 0 = some (j :: rest) := by
  by_cases hp : pred (.elem tag vis attrs cs) = true
  · rw [findP, if_pos hp] at h
    injection h with h2
    cases h2
  · refine ⟨?_, ?_⟩
    · cases hv : pred (.elem tag vis attrs cs)
      · rfl
      · exact absurd hv hp
    · rw [findP, if_neg hp] at h
      exact h

/-- A node satisfying the predicate is found at once. -/
theorem findP_self (pred : DomNode → Bool) (t : DomNode) (h : pred t = true) :
    findP pred t = some [] := by
  cases t with
  | text s => rw [findP, if_pos h]
  | elem tag vis attrs cs => rw [findP, if_pos h]

/-- Counting distributes over an appended child list. -/
theorem countPL_append (pred : DomNode → Bool) (xs ys : List DomNode) :
    countPL pred (xs ++ ys) = countPL pred xs + countPL pred ys := by
  induction xs with
  | nil => simp [countPL]
  | cons c rest ih =>
    simp only [List.cons_append, List.append_eq, countPL, ih]
    omega

/-- Removing one child removes exactly its subtree's count. -/
theorem countPL_removeIdx (pred : DomNode → Bool) (cs : List DomNode) :
    ∀ (j : Nat) (c : DomNode), cs.get? j = some c →
      countPL pred (removeIdx cs j) + countP pred c = countPL pred cs := by
  induction cs with
  | nil => intro j c h; cases h
  | cons c0 rest ih =>
    intro j c h
    cases j with
    | zero =>
      injection h with h2
      subst h2
      simp only [removeIdx, countPL]
      omega
    | succ j2 =>
      have h2 : rest.get? j2 = some c := h
      simp only [removeIdx, countPL]
      have := ih j2 c h2
      omega

/-- Updating one child trades its subtree's count for the new one. -/
theorem countPL_updateIdx (pred : DomNode → Bool) (cs : List DomNode) :
    ∀ (j : Nat) (c : DomNode) (f : DomNode → DomNode), cs.get? j = some c →
      countPL pred (updateIdx cs j f) + countP pred c =
        countPL pred cs + countP pred (f c) := by
  induction cs with
  | nil => intro j c f h; cases h
  | cons c0 rest ih =>
    intro j c f h
    cases j with
    | zero =>
      injection h with h2
      subst h2
      simp only [updateIdx, countPL]
      omega
    | succ j2 =>
      have h2 : rest.get? j2 = some c := h
      simp only [updateIdx, countPL]
      have := ih j2 c f h2
      omega

/-- Detaching a subtree removes exactly its count, for predicates blind to
an element's child list (attribute tests are). -/
theorem countP_removeAt (pred : DomNode → Bool)
    (hpred : ∀ (tag : String) (vis : Bool) (attrs : List (String × String))
      (cs cs2 : List DomNode),
      pred (.elem tag vis attrs cs) = pred (.elem tag vis attrs cs2)) :
    ∀ (p : List Nat) (d t : DomNode), p ≠ [] → nodeAt d p = some t →
      countP pred (removeAt p d) + countP pred t = countP pred d := by
  intro p
  induction p with
  | nil => intro d t hne; exact absurd rfl hne
  | cons j rest ih =>
    intro d t hne hat
    cases d with
    | text s => cases hat
    | elem tag vis attrs cs =>
      cases hc : cs.get? j with
      | none =>
        simp only [nodeAt, hc] at hat
        exact Option.noConfusion hat
      | some c =>
        simp only [nodeAt, hc] at hat
        cases rest with
        | nil =>
          simp only [nodeAt, Option.some.injEq] at hat
          subst hat
          simp only [removeAt, countP]
          rw [hpred tag vis attrs (removeIdx cs j) cs]
          have h5 := countPL_removeIdx pred cs j _ hc
          omega
        | cons r2 rest2 =>
          simp only [removeAt, countP]
          rw [hpred tag vis attrs (updateIdx cs j (removeAt (r2 :: rest2))) cs]
          have h1 := countPL_updateIdx pred cs j c (removeAt (r2 :: rest2)) hc
          have h2 := ih c t (by simp) hat
          omega

/-- A node satisfying the predicate counts at least once. -/
theorem pred_count_pos (pred : DomNode → Bool) (t : DomNode)
    (h : pred t = true) : 1 ≤ countP pred t := by
  cases t with
  | text s => rw [countP, if_pos h]
  | elem tag vis attrs cs =>
    rw [countP, if_pos h]
    omega

mutual

/-- A subtree with count zero yields no hit. -/
theorem countP_zero_findP (d : DomNode) :
    ∀ pred : DomNode → Bool, countP pred d = 0 → findP pred d = none := by
  match d with
  | .text s =>
    intro pred h
    rw [countP] at h
    by_cases hp : pred (.text s) = true
    · rw [if_pos hp] at h
      exact absurd h (by omega)
    · rw [findP, if_neg hp]
  | .elem tag vis attrs cs =>
    intro pred h
    rw [countP] at h
    by_cases hp : pred (.elem tag vis attrs cs) = true
    · rw [if_pos hp] at h
      exact absurd h (by omega)
    · rw [if_neg hp] at h
      rw [findP, if_neg hp]
      exact countPL_zero_findPL cs pred 0 (by omega)

/-- A child list with count zero yields no hit at any index. -/
theorem countPL_zero_findPL (cs : List DomNode) :
    ∀ (pred : DomNode → Bool) (i : Nat), countPL pred cs = 0 →
      findPL pred cs i = none := by
  match cs with
  | [] => intro pred i h; rfl
  | c :: rest =>
    intro pred i h
    rw [countPL] at h
    have h1 : countP pred c = 0 := by omega
    have h2 : countPL pred rest = 0 := by omega
    simp only [findPL, countP_zero_findP c pred h1]
    exact countPL_zero_findPL rest pred (i + 1) h2

end

/-- Searching an appended child list searches the first part, then the
second with shifted indices. -/
theorem findPL_append (pred : DomNode → Bool) (xs ys : List DomNode) :
    ∀ i : Nat, findPL pred (xs ++ ys) i =
      match findPL pred xs i with
      | some q => some q
      | none => findPL pred ys (i + xs.length) := by
  induction xs with
  | nil =>
    intro i
    simp [findPL]
  | cons c xt ih =>
    intro i
    simp only [List.cons_append, findPL]
    cases hf : findP pred c with
    | some p0 => rfl
    | none =>
      dsimp only
      simp only [List.append_eq]
      rw [ih (i + 1)]
      cases h2 : findPL pred xt (i + 1) with
      | some q => rfl
      | none =>
        simp only [List.length_cons]
        have : i + 1 + xt.length = i + (xt.length + 1) := by omega
        rw [this]

/-- Removing the appended last child restores the list. -/
theorem removeIdx_concat (xs : List DomNode) (y : DomNode) :
    removeIdx (xs ++ [y]) xs.length = xs := by
  induction xs with
  | nil => rfl
  | cons c rest ih =>
    simp only [List.cons_append, List.length_cons, removeIdx, List.append_eq, ih]

/-- The appended last child sits at the old length. -/
theorem get?_concat_len (xs : List DomNode) (y : DomNode) :
    (xs ++ [y]).get? xs.length = some y := by
  induction xs with
  | nil => rfl
  | cons c rest ih =>
    exact ih

/-- A nonempty removal path keeps the root element intact. -/
theorem removeAt_cons_elem (j : Nat) (rest : List Nat) (tag : String)
    (vis : Bool) (attrs : List (String × String)) (cs : List DomNode) :
    ∃ cs2, removeAt (j :: rest) (.elem tag vis attrs cs) =
      .elem tag vis attrs cs2 := by
  cases rest with
  | nil => exact ⟨removeIdx cs j, rfl⟩
  | cons r2 rest2 => exact ⟨updateIdx cs j (removeAt (r2 :: rest2)), rfl⟩

/-- Claim C9 (amended): when the explicit panel resolves (uniquely, below
the body root), discovery re-attaches it as the body's last direct child and
reports no sections at all (`navSections_` is left empty — the panel is not
a "section"); the panel is not duplicated (its id count stays one), and a
second discovery run returns the very same document, again with no
sections. -/
theorem C9_explicit_panel_relocation (tag : String) (v : Bool)
    (a : List (String × String)) (cs : List DomNode) (p : List Nat)
    (ids ids2 : Option (List String))
    (hp : resolveId (.elem tag v a cs) navPanelId = some p)
    (hne : p ≠ [])
    (huniq : countById (.elem tag v a cs) navPanelId = 1) :
    ∃ cs2 panel,
      panel = nodeAtD (.elem tag v a cs) p ∧
      getAttr panel "id" = some navPanelId ∧
      findNavSections (.elem tag v a cs) ids =
        some (.elem tag v a (cs2 ++ [panel]), []) ∧
      countById (.elem tag v a (cs2 ++ [panel])) navPanelId = 1 ∧
      findNavSections (.elem tag v a (cs2 ++ [panel])) ids2 =
        some (.elem tag v a (cs2 ++ [panel]), []) := by
  cases p with
  | nil => exact absurd rfl hne
  | cons j rest =>
    obtain ⟨hrootmiss, hfl⟩ := findP_root_miss (idPred navPanelId) tag v a cs j rest hp
    obtain ⟨t, hAt, hpt⟩ := findP_sound (.elem tag v a cs) (idPred navPanelId)
      (j :: rest) hp
    have hAtD : nodeAtD (.elem tag v a cs) (j :: rest) = t := by
      rw [nodeAtD, hAt]
      rfl
    obtain ⟨cs2, hrem⟩ := removeAt_cons_elem j rest tag v a cs
    have hid : getAttr t "id" = some navPanelId := eq_of_beq hpt
    have hcnt : countP (idPred navPanelId) (removeAt (j :: rest) (.elem tag v a cs)) +
        countP (idPred navPanelId) t = 1 := by
      rw [countP_removeAt (idPred navPanelId) (fun _ _ _ _ _ => rfl)
        (j :: rest) (.elem tag v a cs) t (by simp) hAt]
      exact huniq
    have htpos := pred_count_pos (idPred navPanelId) t hpt
    have hzero : countPL (idPred navPanelId) cs2 = 0 := by
      rw [hrem, countP, if_neg (by
        rw [show idPred navPanelId (DomNode.elem tag v a cs2) = false from hrootmiss]
        exact Bool.false_ne_true)] at hcnt
      omega
    have htone : countP (idPred navPanelId) t = 1 := by omega
    refine ⟨cs2, t, hAtD.symm, hid, ?_, ?_, ?_⟩
    · simp only [findNavSections]
      rw [show resolveId (.elem tag v a cs) navPanelId = some (j :: rest) from hp]
      dsimp only
      rw [hrem, hAtD]
      rfl
    · rw [countById, countP, if_neg (by
        rw [show idPred navPanelId (DomNode.elem tag v a (cs2 ++ [t])) = false from
          hrootmiss]
        exact Bool.false_ne_true)]
      simp only [countPL_append, countPL]
      omega
    · have hres2 : resolveId (.elem tag v a (cs2 ++ [t])) navPanelId =
          some [cs2.length] := by
        rw [resolveId, findP, if_neg (by rw [show idPred navPanelId
          (.elem tag v a (cs2 ++ [t])) = false from hrootmiss]; exact Bool.false_ne_true)]
        rw [findPL_append]
        rw [countPL_zero_findPL cs2 (idPred navPanelId) 0 hzero]
        simp only [findPL, findP_self (idPred navPanelId) t hpt, Nat.zero_add]
      simp only [findNavSections]
      rw [hres2]
      dsimp only
      have hnd : nodeAtD (.elem tag v a (cs2 ++ [t])) [cs2.length] = t := by
        rw [nodeAtD]
        simp only [nodeAt, get?_concat_len]
        rfl
      rw [hnd]
      have hrm : removeAt [cs2.length] (.elem tag v a (cs2 ++ [t])) =
          .elem tag v a cs2 := by
        rw [removeAt, removeIdx_concat]
      rw [hrm]
      rfl

/-- Concrete instance of the amended C9 theorem on the C9 page. -/
theorem C9_explicit_panel_relocation_witness :
    resolveId c9Doc navPanelId = some [0, 0] ∧
    (([0, 0] : List Nat) ≠ []) ∧
    countById c9Doc navPanelId = 1 ∧
    (∃ cs2 panel,
      panel = nodeAtD (.elem "BODY" true []
        [.elem "DIV" true [] [c9Panel], .elem "P" true [] [.text "x"]]) [0, 0] ∧
      getAttr panel "id" = some navPanelId ∧
      findNavSections (.elem "BODY" true []
          [.elem "DIV" true [] [c9Panel], .elem "P" true [] [.text "x"]]) none =
        some (.elem "BODY" true [] (cs2 ++ [panel]), []) ∧
      countById (.elem "BODY" true [] (cs2 ++ [panel])) navPanelId = 1 ∧
      findNavSections (.elem "BODY" true [] (cs2 ++ [panel])) none =
        some (.elem "BODY" true [] (cs2 ++ [panel]), [])) :=
  ⟨rfl, by decide, rfl,
    C9_explicit_panel_relocation "BODY" true []
      [.elem "DIV" true [] [c9Panel], .elem "P" true [] [.text "x"]]
      [0, 0] none none rfl (by decide) rfl⟩

/-- Claim C9 (counterexample): on the C9 page the explicit panel resolves,
yet discovery reports an empty section list — the panel is relocated under
the body but is not produced as a section, against the claim's "that element
is the only section". -/
theorem C9_panel_is_not_a_section :
    resolveId c9Doc navPanelId = some [0, 0] ∧
    findNavSections c9Doc (some ["x"]) =
      some (.elem "BODY" true []
        [.elem "DIV" true [] [], .elem "P" true [] [.text "x"], c9Panel], []) :=
  ⟨rfl, rfl⟩

/-- Splitting a snoc list around a distinguished element: the element is the
appended one, or the split lies inside the original list. -/
theorem snoc_eq_split {α : Type} (evs pre post : List α) (x ev : α)
    (h : evs ++ [x] = pre ++ ev :: post) :
    (pre = evs ∧ ev = x ∧ post = []) ∨
    ∃ post2, post = post2 ++ [x] ∧ evs = pre ++ ev :: post2 := by
  rcases List.eq_nil_or_concat post with hpost | ⟨post2, y, hpost⟩
  · subst hpost
    left
    have hlen : evs.length = pre.length := by
      have h2 := congrArg List.length h
      simp only [List.length_append, List.length_cons, List.length_nil] at h2
      omega
    obtain ⟨he, hx⟩ := List.append_inj h hlen
    injection hx with h3 _
    exact ⟨he.symm, h3.symm, rfl⟩
  · rw [List.concat_eq_append] at hpost
    subst hpost
    right
    have h2 : evs ++ [x] = (pre ++ ev :: post2) ++ [y] := by
      rw [h]
      simp
    have hlen : evs.length = (pre ++ ev :: post2).length := by
      have h3 := congrArg List.length h2
      simp only [List.length_append, List.length_cons, List.length_nil] at h3
      simp only [List.length_append, List.length_cons]
      omega
    obtain ⟨he, hx⟩ := List.append_inj h2 hlen
    injection hx with h3 _
    refine ⟨post2, ?_, he⟩
    rw [h3]

/-- Looking a key up after appending one entry. -/
theorem plook_append (xs : List (String × Bool)) (k pid : String) (d : Bool) :
    plook k (xs ++ [(pid, d)]) =
      match plook k xs with
      | some v => some v
      | none => if pid == k then some d else none := by
  induction xs with
  | nil => rfl
  | cons pr rest ih =>
    obtain ⟨k2, v2⟩ := pr
    simp only [List.cons_append, List.append_eq, plook]
    by_cases hk : (k2 == k) = true
    · rw [if_pos hk, if_pos hk]
    · rw [if_neg hk, if_neg hk, ih]

/-- The empty dictionary matches the empty trace. -/
theorem navInv_nil : navInv [] [] := by
  refine ⟨?_, ?_, ?_, ?_, ?_⟩
  · intro k hk hkp e he
    cases he
  · intro k d hk
    cases hk
  · intro e he
    cases he
  · intro k d hk
    cases hk
  · intro e he
    cases he

/-- The invariant absorbs an iteration that had no parent. -/
theorem navInv_snoc_noparent (evs : List ItemEv) (ps : List (String × Bool))
    (ev : ItemEv) (hhp : ev.hasParent = false) (hinv : navInv evs ps) :
    navInv (evs ++ [ev]) ps := by
  obtain ⟨hA, hB, hD, hE, hF⟩ := hinv
  refine ⟨?_, ?_, ?_, ?_, ?_⟩
  · intro k hk hkp e he hp
    rcases List.mem_append.mp he with he | he
    · exact hA k hk hkp e he hp
    · have h2 := List.mem_singleton.mp he
      subst h2
      rw [hhp] at hp
      exact Bool.noConfusion hp
  · intro k d hk
    obtain ⟨hex, hsplit⟩ := hB k d hk
    refine ⟨?_, ?_⟩
    · obtain ⟨e, he, h1, h2⟩ := hex
      exact ⟨e, List.mem_append_left _ he, h1, h2⟩
    · intro pre ev2 post hsp hp2 hpid2
      rcases snoc_eq_split evs pre post ev ev2 hsp with
        ⟨hpre, hev2, hpost⟩ | ⟨post2, hpost, hevs⟩
      · rw [hev2, hhp] at hp2
        exact Bool.noConfusion hp2
      · exact hsplit pre ev2 post2 hevs hp2 hpid2
  · intro e he hp hnp
    rcases List.mem_append.mp he with he | he
    · exact hD e he hp hnp
    · have h2 := List.mem_singleton.mp he
      subst h2
      rw [hhp] at hp
      exact Bool.noConfusion hp
  · exact hE
  · intro e he hp hyes
    rcases List.mem_append.mp he with he | he
    · exact hF e he hp hyes
    · have h2 := List.mem_singleton.mp he
      subst h2
      rw [hhp] at hp
      exact Bool.noConfusion hp

/-- The invariant absorbs a repeat sighting of a known identity. -/
theorem navInv_snoc_seen (evs : List ItemEv) (ps : List (String × Bool))
    (pid : String) (dec : Bool) (ev : ItemEv)
    (hl : plook pid ps = some dec)
    (hpid : ev.pid = pid) (hhp : ev.hasParent = true)
    (heval : ev.evaluated = false) (hdec : ev.decision = dec)
    (hinv : navInv evs ps) : navInv (evs ++ [ev]) ps := by
  obtain ⟨hA, hB, hD, hE, hF⟩ := hinv
  refine ⟨?_, ?_, ?_, ?_, ?_⟩
  · intro k hk hkp e he hp
    rcases List.mem_append.mp he with he | he
    · exact hA k hk hkp e he hp
    · have h2 := List.mem_singleton.mp he
      subst h2
      intro hek
      rw [hpid] at hek
      rw [hek] at hl
      rw [hl] at hk
      exact Option.noConfusion hk
  · intro k d hk
    obtain ⟨hex, hsplit⟩ := hB k d hk
    refine ⟨?_, ?_⟩
    · obtain ⟨e, he, h1, h2⟩ := hex
      exact ⟨e, List.mem_append_left _ he, h1, h2⟩
    · intro pre ev2 post hsp hp2 hpid2
      rcases snoc_eq_split evs pre post ev ev2 hsp with
        ⟨hpre, hev2, hpost⟩ | ⟨post2, hpost, hevs⟩
      · subst hev2
        have hkpid : pid = k := by
          rw [← hpid]
          exact hpid2
        subst hkpid
        have hdk : dec = d := by
          rw [hl] at hk
          injection hk
        refine ⟨?_, ?_⟩
        · constructor
          · intro hev
            rw [heval] at hev
            exact Bool.noConfusion hev
          · intro hall
            exfalso
            obtain ⟨e, he, h1, h2⟩ := hex
            rw [← hpre] at he
            exact hall e he h1 h2
        · rw [hdec, hdk]
      · exact hsplit pre ev2 post2 hevs hp2 hpid2
  · intro e he hp hnp
    rcases List.mem_append.mp he with he | he
    · exact hD e he hp hnp
    · have h2 := List.mem_singleton.mp he
      subst h2
      rw [hpid]
      exact ⟨dec, hl⟩
  · exact hE
  · intro e he hp hyes
    rcases List.mem_append.mp he with he | he
    · exact hF e he hp hyes
    · have h2 := List.mem_singleton.mp he
      subst h2
      exfalso
      rw [hpid] at hyes
      rw [hE pid dec hl] at hyes
      exact Bool.noConfusion hyes

/-- The invariant absorbs an iteration whose fresh identity is inherited from
the prototype: the event is a silent skip and the dictionary is unchanged. -/
theorem navInv_snoc_proto (evs : List ItemEv) (ps : List (String × Bool))
    (pid : String) (ev : ItemEv)
    (hl : plook pid ps = none)
    (hproto : protoKeys.contains pid = true)
    (hpid : ev.pid = pid) (hhp : ev.hasParent = true)
    (heval : ev.evaluated = false) (hdec : ev.decision = true)
    (hpush : ev.pushed = none)
    (hinv : navInv evs ps) : navInv (evs ++ [ev]) ps := by
  obtain ⟨hA, hB, hD, hE, hF⟩ := hinv
  refine ⟨?_, ?_, ?_, ?_, ?_⟩
  · intro k hk hkp e he hp
    rcases List.mem_append.mp he with he | he
    · exact hA k hk hkp e he hp
    · have h2 := List.mem_singleton.mp he
      subst h2
      intro hek
      have hpk : pid = k := by rw [← hpid, hek]
      rw [hpk] at hproto
      rw [hkp] at hproto
      exact Bool.noConfusion hproto
  · intro k d hk
    obtain ⟨hex, hsplit⟩ := hB k d hk
    refine ⟨?_, ?_⟩
    · obtain ⟨e, he, h1, h2⟩ := hex
      exact ⟨e, List.mem_append_left _ he, h1, h2⟩
    · intro pre ev2 post hsp hp2 hpid2
      rcases snoc_eq_split evs pre post ev ev2 hsp with
        ⟨hpre, hev2, hpost⟩ | ⟨post2, hpost, hevs⟩
      · exfalso
        rw [hev2, hpid] at hpid2
        rw [hpid2] at hproto
        rw [hE k d hk] at hproto
        exact Bool.noConfusion hproto
      · exact hsplit pre ev2 post2 hevs hp2 hpid2
  · intro e he hp hnp
    rcases List.mem_append.mp he with he | he
    · exact hD e he hp hnp
    · have h2 := List.mem_singleton.mp he
      subst h2
      exfalso
      rw [hpid] at hnp
      rw [hnp] at hproto
      exact Bool.noConfusion hproto
  · exact hE
  · intro e he hp hyes
    rcases List.mem_append.mp he with he | he
    · exact hF e he hp hyes
    · have h2 := List.mem_singleton.mp he
      subst h2
      exact ⟨heval, hpush, hdec⟩

/-- The invariant absorbs a first sighting of a fresh own identity, together
with its new dictionary entry. -/
theorem navInv_snoc_fresh (evs : List ItemEv) (ps : List (String × Bool))
    (pid : String) (dec : Bool) (ev : ItemEv)
    (hl : plook pid ps = none)
    (hproto : protoKeys.contains pid = false)
    (hpid : ev.pid = pid) (hhp : ev.hasParent = true)
    (heval : ev.evaluated = true) (hdec : ev.decision = dec)
    (hinv : navInv evs ps) : navInv (evs ++ [ev]) (ps ++ [(pid, dec)]) := by
  obtain ⟨hA, hB, hD, hE, hF⟩ := hinv
  refine ⟨?_, ?_, ?_, ?_, ?_⟩
  · intro k hk hkp e he hp
    rw [plook_append] at hk
    cases hv : plook k ps with
    | some v =>
      rw [hv] at hk
      exact Option.noConfusion hk
    | none =>
      rw [hv] at hk
      by_cases hbeq : (pid == k) = true
      · rw [if_pos hbeq] at hk
        exact Option.noConfusion hk
      · rcases List.mem_append.mp he with he | he
        · exact hA k hv hkp e he hp
        · have h2 := List.mem_singleton.mp he
          subst h2
          intro hek
          rw [hpid] at hek
          rw [hek] at hbeq
          simp at hbeq
  · intro k d hk
    rw [plook_append] at hk
    cases hv : plook k ps with
    | some v =>
      rw [hv] at hk
      have hvd : v = d := by injection hk
      subst hvd
      obtain ⟨hex, hsplit⟩ := hB k v hv
      refine ⟨?_, ?_⟩
      · obtain ⟨e, he, h1, h2⟩ := hex
        exact ⟨e, List.mem_append_left _ he, h1, h2⟩
      · intro pre ev2 post hsp hp2 hpid2
        rcases snoc_eq_split evs pre post ev ev2 hsp with
          ⟨hpre, hev2, hpost⟩ | ⟨post2, hpost, hevs⟩
        · exfalso
          rw [hev2, hpid] at hpid2
          rw [hpid2] at hl
          rw [hl] at hv
          exact Option.noConfusion hv
        · exact hsplit pre ev2 post2 hevs hp2 hpid2
    | none =>
      rw [hv] at hk
      by_cases hbeq : (pid == k) = true
      · have hkeq : pid = k := eq_of_beq hbeq
        have hkf : protoKeys.contains k = false := hkeq ▸ hproto
        rw [if_pos hbeq] at hk
        have hdd : dec = d := by injection hk
        refine ⟨?_, ?_⟩
        · refine ⟨ev, List.mem_append_right _ (List.mem_singleton.mpr rfl), hhp, ?_⟩
          rw [hpid, hkeq]
        · intro pre ev2 post hsp hp2 hpid2
          rcases snoc_eq_split evs pre post ev ev2 hsp with
            ⟨hpre, hev2, hpost⟩ | ⟨post2, hpost, hevs⟩
          · refine ⟨?_, ?_⟩
            · constructor
              · intro _ e he hp3
                refine hA k hv hkf e ?_ hp3
                rw [← hpre]
                exact he
              · intro _
                rw [hev2, heval]
            · rw [hev2, hdec, hdd]
          · exfalso
            have hm : ev2 ∈ evs := by
              rw [hevs]
              exact List.mem_append_right _ (List.mem_cons_self _ _)
            exact hA k hv hkf ev2 hm hp2 hpid2
      · rw [if_neg hbeq] at hk
        exact Option.noConfusion hk
  · intro e he hp hnp
    rcases List.mem_append.mp he with he | he
    · obtain ⟨d, hd⟩ := hD e he hp hnp
      refine ⟨d, ?_⟩
      rw [plook_append, hd]
    · have h2 := List.mem_singleton.mp he
      subst h2
      refine ⟨dec, ?_⟩
      rw [hpid, plook_append, hl]
      simp
  · intro k d hk
    rw [plook_append] at hk
    cases hv : plook k ps with
    | some v =>
      rw [hv] at hk
      have hvd : v = d := by injection hk
      exact hE k v hv
    | none =>
      rw [hv] at hk
      by_cases hbeq : (pid == k) = true
      · have hkeq : pid = k := eq_of_beq hbeq
        rw [← hkeq]
        exact hproto
      · rw [if_neg hbeq] at hk
        exact Option.noConfusion hk
  · intro e he hp hyes
    rcases List.mem_append.mp he with he | he
    · exact hF e he hp hyes
    · have h2 := List.mem_singleton.mp he
      subst h2
      exfalso
      rw [hpid] at hyes
      rw [hproto] at hyes
      exact Bool.noConfusion hyes

/-- The parent-present core preserves the bookkeeping invariant. -/
theorem stepCore_inv (st : NavSt) (pid : String) (pp p : List Nat) (i : Nat)
    (doc2 : DomNode) (st2 : NavSt) (ev : ItemEv)
    (h : stepCore st pid pp p i doc2 = (st2, ev)) (evs : List ItemEv)
    (hinv : navInv evs st.parents) : navInv (evs ++ [ev]) st2.parents := by
  simp only [stepCore] at h
  cases hl : plook pid st.parents with
  | none =>
    rw [hl] at h
    by_cases hpr : protoKeys.contains pid = true
    · rw [if_pos hpr] at h
      dsimp only at h
      obtain ⟨h1, h2⟩ := Prod.mk.injEq .. ▸ h
      have hps : st2.parents = st.parents := by
        rw [← h1]
      rw [hps]
      refine navInv_snoc_proto evs st.parents pid ev hl hpr
        ?_ ?_ ?_ ?_ ?_ hinv
      · rw [← h2]
      · rw [← h2]
      · rw [← h2]
      · rw [← h2]
      · rw [← h2]
    · have hprf : protoKeys.contains pid = false := by
        cases hv : protoKeys.contains pid with
        | true => exact absurd hv hpr
        | false => rfl
      rw [if_neg hpr] at h
      dsimp only at h
      obtain ⟨h1, h2⟩ := Prod.mk.injEq .. ▸ h
      have hps : st2.parents =
          st.parents ++ [(pid, canEnlargeNav (nodeAtD doc2 pp) i)] := by
        rw [← h1]
      rw [hps]
      refine navInv_snoc_fresh evs st.parents pid
        (canEnlargeNav (nodeAtD doc2 pp) i) ev hl hprf ?_ ?_ ?_ ?_ hinv
      · rw [← h2]
      · rw [← h2]
      · rw [← h2]
      · rw [← h2]
  | some dec =>
    rw [hl] at h
    dsimp only at h
    obtain ⟨h1, h2⟩ := Prod.mk.injEq .. ▸ h
    have hps : st2.parents = st.parents := by
      rw [← h1]
    rw [hps]
    refine navInv_snoc_seen evs st.parents pid dec ev hl ?_ ?_ ?_ ?_ hinv
    · rw [← h2]
    · rw [← h2]
    · rw [← h2]
    · rw [← h2]

/-- The parent-present core follows the push discipline. -/
theorem stepCore_push (st : NavSt) (pid : String) (pp p : List Nat) (i : Nat)
    (doc2 : DomNode) (st2 : NavSt) (ev : ItemEv)
    (h : stepCore st pid pp p i doc2 = (st2, ev)) : pushRule ev := by
  simp only [stepCore] at h
  cases hl : plook pid st.parents with
  | none =>
    rw [hl] at h
    by_cases hpr : protoKeys.contains pid = true
    · rw [if_pos hpr] at h
      dsimp only at h
      obtain ⟨h1, h2⟩ := Prod.mk.injEq .. ▸ h
      rw [pushRule, ← h2]
      intro hp
      rfl
    · rw [if_neg hpr] at h
      dsimp only at h
      obtain ⟨h1, h2⟩ := Prod.mk.injEq .. ▸ h
      rw [pushRule, ← h2]
      intro hp
      rfl
  | some dec =>
    rw [hl] at h
    dsimp only at h
    obtain ⟨h1, h2⟩ := Prod.mk.injEq .. ▸ h
    rw [pushRule, ← h2]
    intro hp
    rfl

/-- One id-loop iteration preserves the bookkeeping invariant. -/
theorem processId_inv (st : NavSt) (id : String) (st2 : NavSt) (ev : ItemEv)
    (h : processId st id = some (st2, ev)) (evs : List ItemEv)
    (hinv : navInv evs st.parents) : navInv (evs ++ [ev]) st2.parents := by
  simp only [processId] at h
  cases hr : resolveId st.doc id with
  | none =>
    rw [hr] at h
    exact Option.noConfusion h
  | some pth =>
    cases pth with
    | nil =>
      rw [hr] at h
      dsimp only at h
      injection h with h2
      obtain ⟨h3, h4⟩ := Prod.mk.injEq .. ▸ h2
      have hps : st2.parents = st.parents := by
        rw [← h3]
      rw [hps]
      refine navInv_snoc_noparent evs st.parents ev ?_ hinv
      rw [← h4]
    | cons j rest =>
      rw [hr] at h
      dsimp only at h
      injection h with h2
      exact stepCore_inv st _ _ _ _ _ st2 ev h2 evs hinv

/-- One id-loop iteration follows the push discipline. -/
theorem processId_push (st : NavSt) (id : String) (st2 : NavSt) (ev : ItemEv)
    (h : processId st id = some (st2, ev)) : pushRule ev := by
  simp only [processId] at h
  cases hr : resolveId st.doc id with
  | none =>
    rw [hr] at h
    exact Option.noConfusion h
  | some pth =>
    cases pth with
    | nil =>
      rw [hr] at h
      dsimp only at h
      injection h with h2
      obtain ⟨h3, h4⟩ := Prod.mk.injEq .. ▸ h2
      intro hp
      rw [← h4] at hp
      exact Bool.noConfusion hp
    | cons j rest =>
      rw [hr] at h
      dsimp only at h
      injection h with h2
      exact stepCore_push st _ _ _ _ _ st2 ev h2

/-- The whole id loop preserves the bookkeeping invariant and the push
discipline of every event it emits. -/
theorem processIds_inv (ids : List String) :
    ∀ (st : NavSt) (evs0 : List ItemEv) (stF : NavSt) (evs2 : List ItemEv),
      processIds st ids = some (stF, evs2) → navInv evs0 st.parents →
      navInv (evs0 ++ evs2) stF.parents ∧ (∀ e ∈ evs2, pushRule e) := by
  induction ids with
  | nil =>
    intro st evs0 stF evs2 h hinv
    simp only [processIds] at h
    injection h with h2
    obtain ⟨h3, h4⟩ := Prod.mk.injEq .. ▸ h2
    refine ⟨?_, ?_⟩
    · rw [← h4, ← h3, List.append_nil]
      exact hinv
    · intro e he
      rw [← h4] at he
      cases he
  | cons id rest ih =>
    intro st evs0 stF evs2 h hinv
    simp only [processIds] at h
    cases hx : processId st id with
    | none =>
      rw [hx] at h
      exact Option.noConfusion h
    | some pr =>
      obtain ⟨st2, ev⟩ := pr
      rw [hx] at h
      dsimp only at h
      cases h2 : processIds st2 rest with
      | none =>
        rw [h2] at h
        exact Option.noConfusion h
      | some pr2 =>
        obtain ⟨stF2, evs3⟩ := pr2
        rw [h2] at h
        dsimp only at h
        injection h with h3
        obtain ⟨h4, h5⟩ := Prod.mk.injEq .. ▸ h3
        have hstep := processId_inv st id st2 ev hx evs0 hinv
        obtain ⟨hinv2, hpush2⟩ := ih st2 (evs0 ++ [ev]) stF2 evs3 h2 hstep
        refine ⟨?_, ?_⟩
        · rw [← h5, ← h4]
          rw [show evs0 ++ ev :: evs3 = (evs0 ++ [ev]) ++ evs3 by simp]
          exact hinv2
        · intro e he
          rw [← h5] at he
          rcases List.mem_cons.mp he with he | he
          · rw [he]
            exact processId_push st id st2 ev hx
          · exact hpush2 e he

/-- Claim C6 (amended): over any id-discovery run started with an empty
`parents` dictionary, every iteration that found a parent follows the push
discipline (an evaluating iteration pushes the parent exactly when the
heuristic enlarged it and the child otherwise; a non-evaluating iteration
pushes the child exactly when its decision did not enlarge the parent, and
nothing otherwise); an iteration whose parent identity is inherited from
the object prototype is silently skipped — never evaluated, nothing pushed;
the enlarge heuristic is evaluated exactly on the first iteration seeing
each parent identity that is not a prototype key; and every later iteration
sharing an identity reuses the earlier decision without re-evaluating. -/
theorem C6_enlarge_once_per_parent_identity (ids : List String)
    (st0 stF : NavSt) (evs : List ItemEv)
    (h0 : st0.parents = [])
    (hrun : processIds st0 ids = some (stF, evs)) :
    (∀ ev ∈ evs, ev.hasParent = true →
      ev.pushed = (if ev.evaluated then
          some (if ev.decision then ev.parentPath else ev.childPath)
        else if ev.decision then none else some ev.childPath)) ∧
    (∀ ev ∈ evs, ev.hasParent = true → protoKeys.contains ev.pid = true →
      ev.evaluated = false ∧ ev.pushed = none) ∧
    (∀ (pre : List ItemEv) (ev : ItemEv) (post : List ItemEv),
      evs = pre ++ ev :: post → ev.hasParent = true →
      (ev.evaluated = true ↔ (protoKeys.contains ev.pid = false ∧
        ∀ e ∈ pre, e.hasParent = true → e.pid ≠ ev.pid))) ∧
    (∀ (pre : List ItemEv) (ev : ItemEv) (post : List ItemEv),
      evs = pre ++ ev :: post → ev.hasParent = true →
      ∀ e ∈ pre, e.hasParent = true → e.pid = ev.pid →
        e.decision = ev.decision ∧ ev.evaluated = false) := by
  have hstart : navInv [] st0.parents := by
    rw [h0]
    exact navInv_nil
  obtain ⟨hinv, hpush⟩ := processIds_inv ids st0 [] stF evs hrun hstart
  rw [List.nil_append] at hinv
  obtain ⟨hA, hB, hD, hE, hF⟩ := hinv
  refine ⟨?_, ?_, ?_, ?_⟩
  · intro ev hm hp
    exact hpush ev hm hp
  · intro ev hm hp hyes
    exact ⟨(hF ev hm hp hyes).1, (hF ev hm hp hyes).2.1⟩
  · intro pre ev post hsp hhp
    have hm : ev ∈ evs := by
      rw [hsp]
      exact List.mem_append_right _ (List.mem_cons_self _ _)
    constructor
    · intro hev
      have hnp : protoKeys.contains ev.pid = false := by
        cases hc : protoKeys.contains ev.pid with
        | false => rfl
        | true =>
          exfalso
          rw [(hF ev hm hhp hc).1] at hev
          exact Bool.noConfusion hev
      obtain ⟨d, hd⟩ := hD ev hm hhp hnp
      exact ⟨hnp, ((hB ev.pid d hd).2 pre ev post hsp hhp rfl).1.mp hev⟩
    · intro hand
      obtain ⟨d, hd⟩ := hD ev hm hhp hand.1
      exact ((hB ev.pid d hd).2 pre ev post hsp hhp rfl).1.mpr hand.2
  · intro pre ev post hsp hhp e he hhpe hpid
    have hm : ev ∈ evs := by
      rw [hsp]
      exact List.mem_append_right _ (List.mem_cons_self _ _)
    cases hc : protoKeys.contains ev.pid with
    | true =>
      have hme : e ∈ evs := by
        rw [hsp]
        exact List.mem_append_left _ he
      have hce : protoKeys.contains e.pid = true := by
        rw [hpid]
        exact hc
      refine ⟨?_, (hF ev hm hhp hc).1⟩
      rw [(hF e hme hhpe hce).2.2, (hF ev hm hhp hc).2.2]
    | false =>
      obtain ⟨d, hd⟩ := hD ev hm hhp hc
      have hsp1 := (hB ev.pid d hd).2 pre ev post hsp hhp rfl
      obtain ⟨pre2, rest2, hpre⟩ := List.append_of_mem he
      have hsp2 := (hB ev.pid d hd).2 pre2 e (rest2 ++ ev :: post)
        (by rw [hsp, hpre]; simp) hhpe hpid
      refine ⟨hsp2.2.trans hsp1.2.symm, ?_⟩
      cases hevval : ev.evaluated with
      | false => rfl
      | true =>
        exfalso
        exact hsp1.1.mp hevval e he hhpe hpid

/-- Concrete instance of the C6 theorem: the C6 run's three iterations (two
distinct children of one id-less parent, the first repeated). -/
theorem C6_enlarge_once_per_parent_identity_witness :
    c6St0.parents = [] ∧
    processIds c6St0 c6Ids = some (c6Run.1, c6Run.2) ∧
    ((∀ ev ∈ c6Run.2, ev.hasParent = true →
      ev.pushed = (if ev.evaluated then
          some (if ev.decision then ev.parentPath else ev.childPath)
        else if ev.decision then none else some ev.childPath)) ∧
    (∀ ev ∈ c6Run.2, ev.hasParent = true → protoKeys.contains ev.pid = true →
      ev.evaluated = false ∧ ev.pushed = none) ∧
    (∀ (pre : List ItemEv) (ev : ItemEv) (post : List ItemEv),
      c6Run.2 = pre ++ ev :: post → ev.hasParent = true →
      (ev.evaluated = true ↔ (protoKeys.contains ev.pid = false ∧
        ∀ e ∈ pre, e.hasParent = true → e.pid ≠ ev.pid))) ∧
    (∀ (pre : List ItemEv) (ev : ItemEv) (post : List ItemEv),
      c6Run.2 = pre ++ ev :: post → ev.hasParent = true →
      ∀ e ∈ pre, e.hasParent = true → e.pid = ev.pid →
        e.decision = ev.decision ∧ ev.evaluated = false)) :=
  ⟨rfl, rfl, C6_enlarge_once_per_parent_identity c6Ids c6St0 c6Run.1 c6Run.2 rfl rfl⟩

/-- Counterexample to the claim as written: a parent whose author-chosen id
is `toString`, a key inherited by every plain JS object from its prototype.
The `in` test sees the identity as already present and the inherited read
is truthy, so the single iteration seeing this fresh identity is silently
skipped: the heuristic is never evaluated and neither the parent nor the
child is pushed, while the claim requires an evaluating push on the first
sighting of each identity. -/
theorem C6_counterexample_prototype_identity_skipped :
    processIds c6BadSt0 ["n1"] =
      some (⟨c6BadDoc, [], []⟩,
        [{ pid := "toString", hasParent := true, parentPath := [0],
           childPath := [0, 0], evaluated := false, decision := true,
           pushed := none }]) ∧
    protoKeys.contains "toString" = true :=
  ⟨rfl, rfl⟩

/-- Claim C2: for every section subtree, the depth labeler started at the root
(depth 0, outside list context) collects exactly the link elements in document
order, each labeled with its list-nesting depth: the number of enclosing `UL`
elements below the section root, minus one for the first (context-opening)
list level, truncated at zero — independent of any sibling text or image
content, which the traversal never inspects. -/
theorem C2_labelNavDepth_assigns_list_nesting_depth (node : DomNode) :
    labelNavDepth node 0 false = anchorsWithListNesting node 0 :=
  labelNavDepth_eq_nesting node 0

end MobilizeNav
